import Mathlib

/-!
Verification of the settlement-list harvester
(`scripts/build_settlements_excel.py`).

The script downloads (or reads from a local cache) two fixed wiki pages,
segments each parsed document by `h3` headings, harvests settlement names
from gated tables and bullet lists, normalizes the strings, deduplicates,
sorts case-insensitively and writes a spreadsheet.

Strings are modelled as `List Char` (`L` below); the external capabilities
(HTTP transport, HTML tree construction, reading a table element into a
grid of text cells, spreadsheet serialization) are modelled as data:
a parsed document is a flat list of sibling `Node`s, a parsed table carries
an `Option Grid` (`none` = the table failed to parse, the `try/except`
path), and the loader consumes the outcome of the single fetch attempt.
-/

namespace KK

abbrev L := List Char

/-- Whitespace as recognised by Python's `str.strip` / regex `\s` on the
characters occurring in this corpus (ASCII whitespace). -/
def pyWs (c : Char) : Bool :=
  c = ' ' || c = '\t' || c = '\n' || c = '\r' || c = '\x0b' || c = '\x0c'

/-- Left part of Python `str.strip()`: drop leading whitespace. -/
def trimLeft (l : L) : L := l.dropWhile pyWs

/-- Right part of Python `str.strip()`: drop trailing whitespace. -/
def trimR : L → L
  | [] => []
  | c :: rest =>
    match trimR rest with
    | [] => if pyWs c then [] else [c]
    | r => c :: r

/-- Python `str.strip()`. -/
def trim (l : L) : L := trimR (trimLeft l)

/-- Python `str.lower()` on the alphabets occurring in the source corpus:
ASCII letters, the Russian alphabet А..Я and Ё; all other characters are
fixed points of `lower` in this corpus. -/
def toLowerPy (c : Char) : Char :=
  if 'A' ≤ c ∧ c ≤ 'Z' then Char.ofNat (c.toNat + 32)
  else if 'А' ≤ c ∧ c ≤ 'Я' then Char.ofNat (c.toNat + 32)
  else if c = 'Ё' then 'ё'
  else c

def lowerL (l : L) : L := l.map toLowerPy

/-- Does the text start with the pattern (first argument)? -/
def startsWithL : L → L → Bool
  | [], _ => true
  | _ :: _, [] => false
  | p :: ps, c :: cs => p = c && startsWithL ps cs

/-- Python's `pat in s` substring test. -/
def isSubL (pat : L) : L → Bool
  | [] => startsWithL pat []
  | c :: rest => startsWithL pat (c :: rest) || isSubL pat rest

/-- Core of `re.sub(r"\[[^\]]*\]", "", s)`: first component is the string
with every (leftmost, non-overlapping) bracketed span removed, second
component is, when the string contains `']'`, the already-processed suffix
that follows its first `']'` (used to resume scanning after a match). -/
def sbF : L → L × Option L
  | [] => ([], none)
  | c :: rest =>
    let p := sbF rest
    if c = ']' then (c :: p.1, some p.1)
    else if c = '[' then
      match p.2 with
      | some t => (t, p.2)
      | none => (c :: p.1, none)
    else (c :: p.1, p.2)

/-- The transform `re.sub(r"\[[^\]]*\]", "", s)` — remove bracketed footnote markers. -/
def stripBrackets (l : L) : L := (sbF l).1

/-- A string in which no `'['` is followed by a `']'`: no further bracketed
span can match. -/
def cleanB : L → Bool
  | [] => true
  | c :: rest => (c != '[' || !(rest.contains (']'))) && cleanB rest

/-- Does the whole string match `\s+\(.*?\)$` (Python `re`, `.` does not
match a newline): a nonempty whitespace run, then `'('`, then a newline-free
tail whose last character is `')'`. -/
def matchAtB (t : L) : Bool :=
  match t with
  | [] => false
  | c :: _ =>
    pyWs c &&
      (match t.dropWhile pyWs with
       | d :: tail =>
         d == '(' && !tail.isEmpty && tail.getLastD 'x' == ')' && !tail.contains ('\n')
       | [] => false)

/-- The transform `re.sub(r"\s+\(.*?\)$", "", s)`: cut the string at the leftmost
position whose suffix matches the trailing-parenthetical pattern. -/
def parenStrip : L → L
  | [] => []
  | c :: rest => if matchAtB (c :: rest) then [] else c :: parenStrip rest

/-- Drop a literal pattern from the front, or fail. -/
def dropLit : L → L → Option L
  | [], l => some l
  | _ :: _, [] => none
  | p :: ps, c :: cs => if p = c then dropLit ps cs else none

/-- Regex `\s+`: require at least one whitespace character, consume the run. -/
def wsPlus (l : L) : Option L :=
  match l with
  | c :: rest => if pyWs c then some (rest.dropWhile pyWs) else none
  | [] => none

/-- Regex `-?`: skip one dash when present. -/
def dashSkip (l : L) : L :=
  match l with
  | c :: rr => if c = '-' then rr else l
  | [] => l

/-- Match of `^\s*город-?курорт\s+` (returns the remainder on success). -/
def kurortMatch (l : L) : Option L :=
  (dropLit (("город").data) (l.dropWhile pyWs)).bind
    (fun r1 => (dropLit (("курорт").data) (dashSkip r1)).bind wsPlus)

/-- The replace `s.str.replace(r"^\s*город-?курорт\s+", "", regex=True)`. -/
def stripKurort (l : L) : L :=
  match kurortMatch l with
  | some r => r
  | none => l

/-- Match of `^\s*город\s+` (returns the remainder on success). -/
def gorodMatch (l : L) : Option L :=
  (dropLit (("город").data) (l.dropWhile pyWs)).bind wsPlus

/-- The replace `s.str.replace(r"^\s*город\s+", "", regex=True)`. -/
def stripGorod (l : L) : L :=
  match gorodMatch l with
  | some r => r
  | none => l

/-- Model of `normalize_unit_title`: `strip()` then `re.sub(r'^[#\s]+', '', t)`. -/
def normalize_unit_title (t : L) : L :=
  (trim t).dropWhile (fun c => c = '#' || pyWs c)

/-- One parsed HTML table as `pd.read_html` delivers it: a header row (the
column labels, already coerced to strings) and the data rows. -/
structure Grid where
  header : List L
  rows : List (List L)
  deriving DecidableEq, Repr

/-- One `<table>` element as seen by the harvester: its `<caption>` text
(`""` when absent), the texts of its `<th>` cells in document order
(`node.find("th")` is the head of this list), and the result of
`pd.read_html` on it (`none` models the `try/except Exception: pass`
parse-failure path). -/
structure TableEl where
  caption : L
  ths : List L
  grid : Option Grid
  deriving DecidableEq, Repr

/-- A sibling node of the parsed document body, as the walk in
`extract_tables_by_h3` distinguishes them. -/
inductive Node where
  | h2 (t : L)
  | h3 (t : L)
  | table (tb : TableEl)
  | ul (items : List L)
  | other
  deriving DecidableEq, Repr

/-- The keyword gate of `extract_tables_by_h3`: caption contains
"Список насел", or the first `<th>` contains "Насел", "Название" or
"Наименование". -/
def tableCond (tb : TableEl) : Bool :=
  isSubL (("Список насел").data) tb.caption ||
    (match tb.ths.head? with
     | some th => isSubL (("Насел").data) th || isSubL (("Название").data) th ||
         isSubL (("Наименование").data) th
     | none => false)

/-- The list-item comprehension of `extract_tables_by_h3`:
`[re.sub(r"\[[^\]]*\]", "", it).strip() for it in items if len(it.strip()) > 0]`. -/
def ulItems (items : List L) : List L :=
  (items.filter (fun it => !(trim it).isEmpty)).map (fun it => trim (stripBrackets it))

/-- The sibling walk from one `h3`: collect gated, parseable tables and
non-empty bullet lists until the next `h2`/`h3` (or the end). -/
def walkSpan : List Node → List Grid × List (List L)
  | [] => ([], [])
  | n :: rest =>
    match n with
    | .h2 _ => ([], [])
    | .h3 _ => ([], [])
    | .table tb =>
      let p := walkSpan rest
      if tableCond tb then
        match tb.grid with
        | some g => (g :: p.1, p.2)
        | none => p
      else p
    | .ul items =>
      let p := walkSpan rest
      let its := ulItems items
      if its.isEmpty then p else (p.1, its :: p.2)
    | .other => walkSpan rest

/-- Model of `extract_tables_by_h3`: for every `h3`, walk its following siblings and
keep the segment when it yields any table or list. -/
def extract_tables_by_h3 : List Node → List (L × List Grid × List (List L))
  | [] => []
  | n :: rest =>
    match n with
    | .h3 t =>
      let p := walkSpan rest
      if p.1.isEmpty && p.2.isEmpty then extract_tables_by_h3 rest
      else (t, p.1, p.2) :: extract_tables_by_h3 rest
    | _ => extract_tables_by_h3 rest

/-- Index of the first element satisfying the predicate (the `for`/`return`
loops of `settle_column_name`, identifying columns by position). -/
def firstIdx (p : L → Bool) : List L → Option Nat
  | [] => none
  | c :: rest => if p c then some 0 else (firstIdx p rest).map (· + 1)

/-- First-pass rule a of `settle_column_name`: normalized header contains
both the "насел" and the "пункт" stem. -/
def compoundHdr (c : L) : Bool :=
  let n := trim (lowerL c)
  isSubL (("насел").data) n && isSubL (("пункт").data) n

/-- First-pass rule b: normalized header equals a known synonym. -/
def exactHdr (c : L) : Bool :=
  let n := trim (lowerL c)
  n == (("населённый пункт").data) || n == (("населенный пункт").data) ||
    n == (("населённые пункты").data)

/-- First-pass rule c: normalized header equals "название"/"наименование". -/
def nameHdr (c : L) : Bool :=
  let n := trim (lowerL c)
  n == (("название").data) || n == (("наименование").data)

/-- The whole first pass of `settle_column_name` for one candidate. -/
def tier1Hdr (c : L) : Bool := compoundHdr c || exactHdr c || nameHdr c

/-- The second pass of `settle_column_name` for one candidate:
`"пункт" in str(c).lower() or "назв" in str(c).lower()` (no strip). -/
def tier2Hdr (c : L) : Bool :=
  isSubL (("пункт").data) (lowerL c) || isSubL (("назв").data) (lowerL c)

/-- Model of `settle_column_name`, returning the position of the chosen column. -/
def settle_column_name (cands : List L) : Option Nat :=
  match firstIdx tier1Hdr cands with
  | some i => some i
  | none => firstIdx tier2Hdr cands

/-- Column choice of `harvest_region`: `settle_column_name`, else the
second column when the grid has at least two columns, else skip. -/
def pickColumn (g : Grid) : Option Nat :=
  match settle_column_name g.header with
  | some i => some i
  | none => if 2 ≤ g.header.length then some 1 else none

/-- One record of the final table:
`{"Регион": …, "Район": …, "Населенный пункт": …}`. -/
structure Record where
  region : L
  district : L
  settlement : L
  deriving DecidableEq, Repr

/-- The per-cell body of the table loop in `harvest_region`: strip, drop
empty and dash placeholders, then remove footnote markers and strip again. -/
def processCell (val : L) : Option L :=
  let name := trim val
  if name.isEmpty || name == (("—").data) then none
  else some (trim (stripBrackets name))

/-- Cell of a row at a column position; a missing cell is the string that
`astype(str)` makes of pandas' NaN padding. -/
def cellAt (row : List L) (i : Nat) : L :=
  match row.get? i with
  | some v => v
  | none => ("nan").data

/-- Records harvested from one grid under one district title. -/
def gridRecords (reg unit : L) (g : Grid) : List Record :=
  match pickColumn g with
  | none => []
  | some i =>
    g.rows.filterMap (fun row => (processCell (cellAt row i)).map (fun s => ⟨reg, unit, s⟩))

/-- Records harvested from one processed bullet list: drop empty, dash, and
over-100-character candidates. -/
def ulRecords (reg unit : L) (items : List L) : List Record :=
  items.filterMap (fun name =>
    if name.isEmpty || name == (("—").data) || 100 < name.length then none
    else some ⟨reg, unit, name⟩)

/-- Records of one segment of `extract_tables_by_h3`: all tables first,
then all bullet lists, under the normalized heading. -/
def segRecords (reg : L) (seg : L × List Grid × List (List L)) : List Record :=
  let unit := normalize_unit_title seg.1
  (seg.2.1.map (gridRecords reg unit)).flatten ++ (seg.2.2.map (ulRecords reg unit)).flatten

/-- Model of `DataFrame.drop_duplicates()` with an explicit seen-set: keep the first
occurrence of every full (region, district, settlement) row. -/
def dedupSeen (seen : List Record) : List Record → List Record
  | [] => []
  | r :: rest => if r ∈ seen then dedupSeen seen rest else r :: dedupSeen (r :: seen) rest

def drop_duplicates (l : List Record) : List Record := dedupSeen [] l

/-- Model of `harvest_region` on an already-loaded, already-parsed document. -/
def harvest_region (reg : L) (nodes : List Node) : List Record :=
  drop_duplicates ((extract_tables_by_h3 nodes).map (segRecords reg)).flatten

/-- The two column replaces of `main`: strip the "город-курорт "/"город "
district prefixes, cut a trailing parenthetical off the settlement. -/
def normalizeMain (r : Record) : Record :=
  ⟨r.region, stripGorod (stripKurort r.district), parenStrip r.settlement⟩

/-- Code-point comparison of lowered strings: Python `str` `<=`. -/
def leL : L → L → Bool
  | [], _ => true
  | _ :: _, [] => false
  | c :: cs, d :: ds =>
    if c.toNat < d.toNat then true
    else if d.toNat < c.toNat then false
    else leL cs ds

/-- One key of a lexicographic multi-key comparison: distinct keys decide,
equal keys defer to the remaining keys. -/
def lexStep (x1 x2 : L) (rest : Bool) : Bool :=
  if x1 == x2 then rest else leL x1 x2

/-- The 3-key case-insensitive sort order of `main`:
`sort_values(by=["Регион", "Район", "Населенный пункт"], key=lambda s: s.str.lower())`. -/
def keyLe (r s : Record) : Bool :=
  lexStep (lowerL r.region) (lowerL s.region)
    (lexStep (lowerL r.district) (lowerL s.district)
      (leL (lowerL r.settlement) (lowerL s.settlement)))

/-- Stable insertion into a sorted list: a new element goes after every
element that is `keyLe`-below-or-equal, matching pandas' stable lexsort. -/
def insSorted (r : Record) : List Record → List Record
  | [] => [r]
  | x :: xs => if keyLe x r then x :: insSorted r xs else r :: x :: xs

/-- Stable sort by the `main` sort key. -/
def sortRecs (l : List Record) : List Record :=
  l.foldl (fun acc r => insSorted r acc) []

instance exceptDecEq {ε α : Type} [DecidableEq ε] [DecidableEq α] : DecidableEq (Except ε α) :=
  fun x y =>
    match x, y with
    | .ok a, .ok b =>
      if h : a = b then .isTrue (by rw [h]) else .isFalse (by intro hh; cases hh; exact h rfl)
    | .error a, .error b =>
      if h : a = b then .isTrue (by rw [h]) else .isFalse (by intro hh; cases hh; exact h rfl)
    | .ok _, .error _ => .isFalse (by intro hh; cases hh)
    | .error _, .ok _ => .isFalse (by intro hh; cases hh)

/-- Loader failures: `FileNotFoundError` on a missing cache file (offline),
`requests` network/timeout errors or `raise_for_status` (online). -/
inductive LoadErr where
  | localRead
  | fetch
  deriving DecidableEq, Repr

/-- Fatal run outcomes of `main`: a loader failure, or the empty-aggregate
failure (`EmptyResultError` of the spec; in the source it surfaces as the
column lookup `result["Район"]` failing on the columnless frame that
`pd.concat` builds from row-less per-region frames). -/
inductive RunError where
  | load (e : LoadErr)
  | emptyResult
  deriving DecidableEq, Repr

/-- The two fixed region labels of `WIKI_URLS`, in list order. -/
def WIKI_REGIONS : List L :=
  [(("Краснодарский край").data), (("Республика Адыгея").data)]

/-- The region loop of `main`: harvest every region in order, aborting on
the first loader failure. -/
def collectFrames : List (L × Except LoadErr (List Node)) → Except RunError (List Record)
  | [] => .ok []
  | (reg, res) :: rest =>
    match res with
    | .error e => .error (.load e)
    | .ok doc =>
      match collectFrames rest with
      | .error e => .error e
      | .ok rs => .ok (harvest_region reg doc ++ rs)

/-- Model of `main` downstream of argument parsing, taking the per-region load/parse
outcomes: concatenate the per-region frames, fail on an empty aggregate
before any output is written, otherwise normalize, sort and return the rows
that are written to the spreadsheet. -/
def mainRun (loads : List (Except LoadErr (List Node))) : Except RunError (List Record) :=
  match collectFrames (WIKI_REGIONS.zip loads) with
  | .error e => .error e
  | .ok allRows =>
    if allRows.isEmpty then .error .emptyResult
    else .ok (sortRecs (allRows.map normalizeMain))

/-- The full normalization sequence one settlement string undergoes on its
way to the output: `strip`, footnote-marker removal plus `strip`
(`harvest_region`), trailing-parenthetical removal (`main`). -/
def settleNormFull (s : L) : L := parenStrip (trim (stripBrackets (trim s)))

/-- The full normalization sequence a district label undergoes:
`normalize_unit_title` (`harvest_region`), then the "город-курорт " and
"город " prefix replaces (`main`). -/
def distNormFull (d : L) : L := stripGorod (stripKurort (normalize_unit_title d))

/-- The full record normalization sequence of the pipeline. -/
def normRecordFull (r : Record) : Record :=
  ⟨r.region, distNormFull r.district, settleNormFull r.settlement⟩

/-- The character class `[a-zA-Z0-9._-]` of `load_html`'s filename regex. -/
def goodFnameChar (c : Char) : Bool :=
  ('a' ≤ c && c ≤ 'z') || ('A' ≤ c && c ≤ 'Z') || ('0' ≤ c && c ≤ '9') ||
    c = '.' || c = '_' || c = '-'

/-- The transform `re.sub(r'[^a-zA-Z0-9._-]+', '_', path)`: every maximal run of
characters outside the class becomes a single underscore (the flag records
whether the previous character was inside a bad run). -/
def collapseBad : Bool → L → L
  | _, [] => []
  | inBad, c :: rest =>
    if goodFnameChar c then c :: collapseBad false rest
    else if inBad then collapseBad true rest
    else '_' :: collapseBad true rest

/-- The offline cache filename `load_html` derives from a URL path. -/
def cacheFname (path : L) : L := collapseBad false path ++ ((".html").data)

/-- Follows the words of the spec sentence behind C9 (each character
outside `[A-Za-z0-9._-]` replaced by an underscore), for comparison with
the `cacheFname` the code computes. -/
def cacheFnameSpec (path : L) : L :=
  (path.map (fun c => if goodFnameChar c then c else '_')) ++ ((".html").data)

/-- Model of `load_html` on the path component of a URL. Offline mode reads the
cache (an association list filename ↦ contents; a missing file raises
`FileNotFoundError`). Online mode consumes the outcome of the single
`requests.get` attempt: `none` is a network/timeout failure, otherwise
`raise_for_status` raises exactly on a 4xx/5xx status. -/
def load_html (cache : Option (List (L × L))) (path : L) (fetchRes : Option (Nat × L)) :
    Except LoadErr L :=
  match cache with
  | some files =>
    match files.lookup (cacheFname path) with
    | some s => .ok s
    | none => .error .localRead
  | none =>
    match fetchRes with
    | none => .error .fetch
    | some (st, body) => if 400 ≤ st ∧ st < 600 then .error .fetch else .ok body

/-- Heading text of a node, at either heading level. -/
def headText : Node → Option L
  | .h2 t => some t
  | .h3 t => some t
  | _ => none

/-- Modelled from the spec: the document-wide fallback scan (§4.2) of the
second script variant of this repository, which is not under `src/`. A
single left-to-right pass carries the most recent heading of either level
and attributes every table to it; a table seen before any heading is
skipped. -/
def wideScanAux (cur : Option L) : List Node → List (L × TableEl)
  | [] => []
  | n :: rest =>
    match n with
    | .h2 t => wideScanAux (some t) rest
    | .h3 t => wideScanAux (some t) rest
    | .table tb =>
      (match cur with
       | some h => (h, tb) :: wideScanAux cur rest
       | none => wideScanAux cur rest)
    | .ul _ => wideScanAux cur rest
    | .other => wideScanAux cur rest

/-- Modelled from the spec: the document-wide fallback scan, started with
no heading in scope. -/
def wideScan (nodes : List Node) : List (L × TableEl) := wideScanAux none nodes

/-- Does the sibling walk attribute no table to any heading? (The
condition under which the spec's fallback strategy applies.) -/
def noSibTables (nodes : List Node) : Bool :=
  (extract_tables_by_h3 nodes).all (fun seg => seg.2.1.isEmpty)

/-- The nearest heading (of either level) strictly before a position,
defaulting to a surrounding context heading: the claim-side description of
the fallback attribution. -/
def lastHeadD (cur : Option L) (l : List Node) : Option L :=
  match (l.filterMap headText).getLast? with
  | some h => some h
  | none => cur

/-- What the spec says the fallback produces at index `i`: the table at
`i`, attributed to its nearest preceding heading anywhere before it, or
nothing when no heading precedes it. -/
def wideSpecAt (ns : List Node) (i : Nat) : Option (L × TableEl) :=
  match ns.get? i with
  | some (.table tb) =>
    (match lastHeadD none (ns.take i) with
     | some h => some (h, tb)
     | none => none)
  | _ => none

/-- The claim-side characterization of the gated table harvest within one
segment span (used to state C10 against `walkSpan`). -/
def gateGrid : Node → Option Grid
  | .table tb => if tableCond tb then tb.grid else none
  | _ => none

/-- Is a node a heading (either level)? -/
def isHeadNode : Node → Bool
  | .h2 _ => true
  | .h3 _ => true
  | _ => false

/-! ### Concrete documents used by the claim theorems -/

/-- The header row of the C1 scenario table. -/
def c1Hdr : List L := [(("№").data), (("Населённый пункт").data), (("Население").data)]

/-- The grid of the C1 scenario table. -/
def c1Grid : Grid :=
  ⟨c1Hdr, [[(("1").data), (("Сочи").data), (("500000").data)],
    [(("2").data), (("Адлер[2]").data), (("50000").data)]]⟩

/-- The C1 scenario table exactly as the claim describes it: no caption,
header cells as `<th>`s. -/
def c1Table : TableEl := ⟨[], c1Hdr, some c1Grid⟩

/-- The C1 scenario document: the table under the heading
"Городской округ Сочи". -/
def c1Doc : List Node := [Node.h3 (("Городской округ Сочи").data), Node.table c1Table]

/-- The C1 scenario repaired so that it exercises the pipeline the claim
has in mind: the table carries a caption that passes the keyword gate, and
the heading carries the prefix form the normalizer actually strips. -/
def c1TableAmended : TableEl := ⟨(("Список населённых пунктов").data), c1Hdr, some c1Grid⟩

def c1DocAmended : List Node :=
  [Node.h3 (("город-курорт Сочи").data), Node.table c1TableAmended]

/-- A gated single-column table whose only cell is a bare footnote marker. -/
def c3Table : TableEl :=
  ⟨[], [(("Название").data)], some ⟨[(("Название").data)], [[(("[1]").data)]]⟩⟩

def c3Doc : List Node := [Node.h3 (("Тест").data), Node.table c3Table]

/-- Two gated tables whose rows coincide only after the trailing
parenthetical is removed in `main`. -/
def c4Table1 : TableEl :=
  ⟨[], [(("Название").data)], some ⟨[(("Название").data)], [[(("Адлер").data)]]⟩⟩

def c4Table2 : TableEl :=
  ⟨[], [(("Название").data)], some ⟨[(("Название").data)], [[(("Адлер (район)").data)]]⟩⟩

def c4Doc : List Node := [Node.h3 (("Тест").data), Node.table c4Table1, Node.table c4Table2]

/-! ### Claim theorems -/

/-- C1 (counterexample): the scenario exactly as the claim states it — the
cached document for the first region holds, under the heading
"Городской округ Сочи", a table with header `["№", "Населённый пункт",
"Население"]` and rows `[["1", "Сочи", "500000"], ["2", "Адлер[2]",
"50000"]]` — yields no records at all, not the two claimed ones: the table
has no caption and its first `<th>` is "№", so the keyword gate of
`extract_tables_by_h3` skips it, and the run aborts with the
empty-aggregate error instead of producing records. -/
theorem c1_scenario_counterexample :
    harvest_region (("Краснодарский край").data) c1Doc = [] ∧
      mainRun [Except.ok c1Doc, Except.ok []] = Except.error RunError.emptyResult := by
  constructor
  · rfl
  · rfl

/-- C1 (amended): with the scenario table carrying the caption
"Список населённых пунктов" (so the keyword gate passes) and the heading
"город-курорт Сочи" (the prefix form the normalizer strips), the pipeline
produces exactly the two records (region, "Сочи", "Адлер") and
(region, "Сочи", "Сочи"): the table is harvested, the footnote marker
"[2]" is removed from "Адлер[2]", and the district is reduced to "Сочи". -/
theorem c1_scenario_amended :
    mainRun [Except.ok c1DocAmended, Except.ok []] =
      Except.ok
        [⟨(("Краснодарский край").data), (("Сочи").data), (("Адлер").data)⟩,
          ⟨(("Краснодарский край").data), (("Сочи").data), (("Сочи").data)⟩] := by
  rfl

/-- C2: when harvesting yields zero records for both regions, `main`
terminates with the empty-aggregate error — the `EmptyResultError` of the
spec — before any output row is produced (the `Except.error` result models
the non-zero exit with no output file written). -/
theorem c2_empty_result (d1 d2 : List Node)
    (h1 : harvest_region (("Краснодарский край").data) d1 = [])
    (h2 : harvest_region (("Республика Адыгея").data) d2 = []) :
    mainRun [Except.ok d1, Except.ok d2] = Except.error RunError.emptyResult := by
  simp only [mainRun, WIKI_REGIONS, List.zip, List.zipWith, collectFrames, h1, h2]
  rfl

/-- C2 (witness): two empty documents harvest to nothing and the run ends
in the empty-aggregate error. -/
theorem c2_empty_result_witness :
    harvest_region (("Краснодарский край").data) [] = [] ∧
      harvest_region (("Республика Адыгея").data) [] = [] ∧
      mainRun [Except.ok [], Except.ok []] = Except.error RunError.emptyResult :=
  ⟨rfl, rfl, c2_empty_result [] [] rfl rfl⟩

lemma firstIdx_eq_none (p : L → Bool) :
    ∀ l : List L, firstIdx p l = none → ∀ c ∈ l, p c = false := by
  intro l
  induction l with
  | nil => intro _ c hc; cases hc
  | cons a rest ih =>
    intro h c hc
    by_cases hp : p a
    · simp [firstIdx, hp] at h
    · rcases List.mem_cons.mp hc with rfl | hc
      · simpa using hp
      · refine ih ?_ c hc
        simp only [firstIdx, hp, if_neg, Bool.false_eq_true, not_false_iff, ite_false] at h
        exact Option.map_eq_none.mp h

lemma firstIdx_eq_some (p : L → Bool) :
    ∀ (l : List L) (i : Nat), firstIdx p l = some i →
      ∃ c, l.get? i = some c ∧ p c = true := by
  intro l
  induction l with
  | nil => intro i h; simp [firstIdx] at h
  | cons a rest ih =>
    intro i h
    by_cases hp : p a
    · simp only [firstIdx, hp, ite_true, Option.some.injEq] at h
      exact ⟨a, by simp [← h], hp⟩
    · simp only [firstIdx, hp, Bool.false_eq_true, not_false_iff, ite_false] at h
      rcases Option.map_eq_some.mp h with ⟨j, hj, rfl⟩
      rcases ih j hj with ⟨c, hc, hpc⟩
      exact ⟨c, by simpa using hc, hpc⟩

/-- C6: when no header matches any name-like rule (`settle_column_name`
returns `none`), the harvester falls back to the column at index 1 whenever
the grid has at least two columns, and a grid with fewer than two columns
is skipped entirely and contributes no records. -/
theorem c6_no_header_fallback (g : Grid) (reg unit : L)
    (h : settle_column_name g.header = none) :
    (2 ≤ g.header.length → pickColumn g = some 1) ∧
      (g.header.length < 2 → gridRecords reg unit g = []) := by
  constructor
  · intro h2
    simp [pickColumn, h, h2]
  · intro hlt
    have hn : pickColumn g = none := by
      simp [pickColumn, h, Nat.not_le.mpr hlt]
    simp [gridRecords, hn]

/-- C6 (witness): a two-column grid with headers "a", "b" has no name-like
header, so column index 1 is selected. -/
theorem c6_no_header_fallback_witness :
    settle_column_name [(("a").data), (("b").data)] = none ∧
      pickColumn ⟨[(("a").data), (("b").data)], [[(("x").data), (("y").data)]]⟩ = some 1 :=
  ⟨by decide,
    (c6_no_header_fallback ⟨[(("a").data), (("b").data)], [[(("x").data), (("y").data)]]⟩
      [] [] (by decide)).1 (by decide)⟩

/-- C7 (counterexample): the claim says a grid containing a header with
the two-stem compound match gets exactly that column. With headers
`["название", "населённый пункт"]`, column 1 is the compound match, yet
`settle_column_name` returns column 0 — the single pass tests all three
first-tier rules per candidate, so an earlier synonym header wins over a
later compound header. -/
theorem c7_compound_counterexample :
    settle_column_name [(("название").data), (("населённый пункт").data)] = some 0 ∧
      compoundHdr (("населённый пункт").data) = true ∧
      compoundHdr (("название").data) = false := by
  decide

/-- C7 (amended): whenever some header matches the two-stem compound rule,
`settle_column_name` succeeds, returning the first column that matches any
first-tier rule (compound, exact synonym, or exact "название"/
"наименование") — so the second-column fallback is never used for such a
grid. -/
theorem c7_compound_no_fallback (g : Grid)
    (h : ∃ c ∈ g.header, compoundHdr c = true) :
    ∃ j c, settle_column_name g.header = some j ∧ pickColumn g = some j ∧
      g.header.get? j = some c ∧ tier1Hdr c = true := by
  rcases h with ⟨c, hc, hcomp⟩
  have ht1 : tier1Hdr c = true := by simp [tier1Hdr, hcomp]
  rcases hfi : firstIdx tier1Hdr g.header with _ | j
  · exact absurd ht1 (by simp [firstIdx_eq_none tier1Hdr g.header hfi c hc])
  · have hs : settle_column_name g.header = some j := by
      simp [settle_column_name, hfi]
    rcases firstIdx_eq_some tier1Hdr g.header j hfi with ⟨c', hc', ht'⟩
    exact ⟨j, c', hs, by simp [pickColumn, hs], hc', ht'⟩

/-- C7 (witness): with headers `["x", "Населённые пункты"]` the compound
column exists, `settle_column_name` picks it (index 1) by a first-tier
rule, and the fallback is not used. -/
theorem c7_compound_no_fallback_witness :
    ∃ j c,
      settle_column_name (Grid.mk [(("x").data), (("Населённые пункты").data)] []).header =
          some j ∧
        pickColumn (Grid.mk [(("x").data), (("Населённые пункты").data)] []) = some j ∧
        (Grid.mk [(("x").data), (("Населённые пункты").data)] []).header.get? j = some c ∧
        tier1Hdr c = true :=
  c7_compound_no_fallback (Grid.mk [(("x").data), (("Населённые пункты").data)] [])
    ⟨(("Населённые пункты").data), by decide, by decide⟩

/-- C9 (counterexample): the claim (and the spec) describe the cache
filename as each character outside `[A-Za-z0-9._-]` replaced by an
underscore; the code's regex `[^a-zA-Z0-9._-]+` collapses each maximal run
of such characters into a single underscore. On the path "/a//b" the two
disagree: the code produces "_a_b.html", the per-character description
"_a__b.html". -/
theorem c9_filename_counterexample :
    cacheFname (("/a//b").data) ≠ cacheFnameSpec (("/a//b").data) ∧
      cacheFname (("/a//b").data) = (("_a_b.html").data) := by
  decide

/-- C9 (amended): offline mode maps the URL path to a cache filename by
replacing each maximal run of characters outside `[A-Za-z0-9._-]` with a
single underscore and appending ".html", and the load fails with the
missing-cache-file error exactly when that filename is absent from the
cache; online mode makes a single fetch attempt and fails exactly on a
network/timeout failure or a 4xx/5xx status. -/
theorem c9_loader_contract (cache : List (L × L)) (path : L) (fetchRes : Option (Nat × L)) :
    ((∀ s, load_html (some cache) path fetchRes = Except.ok s ↔
        cache.lookup (cacheFname path) = some s) ∧
      (load_html (some cache) path fetchRes = Except.error LoadErr.localRead ↔
        cache.lookup (cacheFname path) = none)) ∧
      ((∀ s, load_html none path fetchRes = Except.ok s ↔
          ∃ st, fetchRes = some (st, s) ∧ (st < 400 ∨ 600 ≤ st)) ∧
        (load_html none path fetchRes = Except.error LoadErr.fetch ↔
          (fetchRes = none ∨ ∃ st b, fetchRes = some (st, b) ∧ 400 ≤ st ∧ st < 600))) := by
  refine ⟨⟨?_, ?_⟩, ?_, ?_⟩
  · intro s
    cases h : cache.lookup (cacheFname path) <;> simp [load_html, h]
  · cases h : cache.lookup (cacheFname path) <;> simp [load_html, h]
  · intro s
    rcases fetchRes with _ | ⟨st, body⟩
    · simp [load_html]
    · by_cases hst : 400 ≤ st ∧ st < 600
      · simp only [load_html, if_pos hst]
        constructor
        · intro h; cases h
        · rintro ⟨st1, h1, h2⟩
          simp only [Option.some.injEq, Prod.mk.injEq] at h1
          obtain ⟨h1a, h1b⟩ := h1
          exact absurd hst (by omega)
      · simp only [load_html, if_neg hst]
        constructor
        · intro h
          injection h with h'
          exact ⟨st, by rw [h'], by omega⟩
        · rintro ⟨st1, h1, h2⟩
          simp only [Option.some.injEq, Prod.mk.injEq] at h1
          rw [h1.2]
  · rcases fetchRes with _ | ⟨st, body⟩
    · simp [load_html]
    · by_cases hst : 400 ≤ st ∧ st < 600
      · simp only [load_html, if_pos hst]
        constructor
        · intro _
          exact Or.inr ⟨st, body, rfl, hst.1, hst.2⟩
        · intro _
          trivial
      · simp only [load_html, if_neg hst]
        constructor
        · intro h
          cases h
        · rintro (h | ⟨st1, b1, h1, h400, h600⟩)
          · cases h
          · simp only [Option.some.injEq, Prod.mk.injEq] at h1
            obtain ⟨h1a, h1b⟩ := h1
            exact absurd (by omega) hst

/-- C9 (amended, witness): a one-file cache serves its file, and a 404
response turns into a fetch failure. -/
theorem c9_loader_contract_witness :
    load_html (some [((("_a_b.html").data), (("body").data))]) (("/a//b").data) none =
        Except.ok (("body").data) ∧
      load_html none (("/a//b").data) (some (404, (("body").data))) =
        Except.error LoadErr.fetch :=
  ⟨((c9_loader_contract [((("_a_b.html").data), (("body").data))] (("/a//b").data)
        none).1.1 (("body").data)).mpr (by decide),
    ((c9_loader_contract [] (("/a//b").data) (some (404, (("body").data)))).2.2).mpr
      (Or.inr ⟨404, (("body").data), rfl, by omega, by omega⟩)⟩

/-- C10: within one heading span, the tables that reach the harvest are
exactly the keyword-gated, successfully parsed ones — a table whose
caption lacks "Список насел" and whose first `<th>` contains none of
"Насел"/"Название"/"Наименование" is silently skipped, and so is a table
whose parse fails (`gateGrid` returns its grid only when `tableCond`
passes; the walk stops at the next heading). -/
theorem c10_keyword_gate :
    ∀ ns : List Node,
      (walkSpan ns).1 = (ns.takeWhile (fun n => !isHeadNode n)).filterMap gateGrid := by
  intro ns
  induction ns with
  | nil => rfl
  | cons n rest ih =>
    cases n with
    | h2 t => simp [walkSpan, isHeadNode, List.takeWhile]
    | h3 t => simp [walkSpan, isHeadNode, List.takeWhile]
    | table tb =>
      by_cases hc : tableCond tb
      · cases hg : tb.grid with
        | none => simp [walkSpan, hc, hg, isHeadNode, List.takeWhile, gateGrid, ih]
        | some g => simp [walkSpan, hc, hg, isHeadNode, List.takeWhile, gateGrid, ih]
      · simp [walkSpan, hc, isHeadNode, List.takeWhile, gateGrid, ih]
    | ul items =>
      by_cases hi : (ulItems items).isEmpty <;>
        simp [walkSpan, hi, isHeadNode, List.takeWhile, gateGrid, ih]
    | other => simp [walkSpan, isHeadNode, List.takeWhile, gateGrid, ih]

/-- Update the heading in scope when stepping over one node. -/
def updHead (cur : Option L) (n : Node) : Option L :=
  match headText n with
  | some t => some t
  | none => cur

/-- Version of `wideSpecAt` generalized by the heading in scope before the scanned
region (needed to state the induction for the scan/spec equivalence). -/
def wideSpecD (cur : Option L) (ns : List Node) (i : Nat) : Option (L × TableEl) :=
  match ns.get? i with
  | some (.table tb) =>
    (match lastHeadD cur (ns.take i) with
     | some h => some (h, tb)
     | none => none)
  | _ => none

lemma wideSpecD_none (ns : List Node) (i : Nat) : wideSpecD none ns i = wideSpecAt ns i := rfl

lemma filterMap_congr' {α β : Type _} :
    ∀ (l : List α) (f g : α → Option β), (∀ a ∈ l, f a = g a) → l.filterMap f = l.filterMap g := by
  intro l
  induction l with
  | nil => intro f g _; rfl
  | cons a rest ih =>
    intro f g h
    simp only [List.filterMap_cons, h a (List.mem_cons_self a rest)]
    cases g a <;> simp [ih f g (fun x hx => h x (List.mem_cons_of_mem a hx))]

lemma lastHeadD_cons (cur : Option L) (n : Node) (l : List Node) :
    lastHeadD cur (n :: l) = lastHeadD (updHead cur n) l := by
  cases hn : headText n with
  | none => simp [lastHeadD, updHead, List.filterMap_cons, hn]
  | some t =>
    cases hfm : l.filterMap headText with
    | nil => simp [lastHeadD, updHead, List.filterMap_cons, hn, hfm]
    | cons x xs =>
      simp only [lastHeadD, updHead, List.filterMap_cons, hn, hfm]
      cases hg : (x :: xs).getLast? with
      | none => simp at hg
      | some y => rw [List.getLast?_cons_cons, hg]

lemma wideScanAux_eq :
    ∀ (ns : List Node) (cur : Option L),
      wideScanAux cur ns = (List.range ns.length).filterMap (wideSpecD cur ns) := by
  intro ns
  induction ns with
  | nil => intro cur; rfl
  | cons n rest ih =>
    intro cur
    have hrange :
        (List.range (n :: rest).length).filterMap (wideSpecD cur (n :: rest)) =
          (wideSpecD cur (n :: rest) 0).toList ++
            (List.range rest.length).filterMap (wideSpecD (updHead cur n) rest) := by
      rw [List.length_cons, List.range_succ_eq_map, List.filterMap_cons, List.filterMap_map]
      have hpt : ∀ i ∈ List.range rest.length,
          (wideSpecD cur (n :: rest) ∘ (· + 1)) i = wideSpecD (updHead cur n) rest i := by
        intro i _
        simp only [Function.comp_apply, wideSpecD, List.get?_cons_succ, List.take_succ_cons,
          lastHeadD_cons]
      rw [filterMap_congr' _ _ _ hpt]
      cases h0 : wideSpecD cur (n :: rest) 0 <;> simp [h0]
    rw [hrange]
    cases n with
    | h2 t =>
      have h0 : wideSpecD cur (Node.h2 t :: rest) 0 = none := rfl
      simp only [wideScanAux, ih (some t), h0, Option.toList_none, List.nil_append]
      rfl
    | h3 t =>
      have h0 : wideSpecD cur (Node.h3 t :: rest) 0 = none := rfl
      simp only [wideScanAux, ih (some t), h0, Option.toList_none, List.nil_append]
      rfl
    | table tb =>
      cases cur with
      | none =>
        have h0 : wideSpecD none (Node.table tb :: rest) 0 = none := rfl
        simp only [wideScanAux, ih none, h0, Option.toList_none, List.nil_append]
        rfl
      | some h =>
        have h0 : wideSpecD (some h) (Node.table tb :: rest) 0 = some (h, tb) := rfl
        simp only [wideScanAux, ih (some h), h0, Option.toList_some, List.singleton_append]
        rfl
    | ul items =>
      have h0 : wideSpecD cur (Node.ul items :: rest) 0 = none := rfl
      simp only [wideScanAux, ih cur, h0, Option.toList_none, List.nil_append]
      rfl
    | other =>
      have h0 : wideSpecD cur (Node.other :: rest) 0 = none := rfl
      simp only [wideScanAux, ih cur, h0, Option.toList_none, List.nil_append]
      rfl

/-- C5: when the sibling walk attributes no table to any heading, the
document-wide fallback scan attributes each table to the nearest preceding
heading of either level anywhere before it, and a table with no preceding
heading at all is skipped (the spec-side description `wideSpecAt` filters
it out). The fallback itself is modelled from the spec, since the second
script variant carrying it is not under `src/`. -/
theorem c5_fallback_nearest_heading (ns : List Node) (_h : noSibTables ns = true) :
    wideScan ns = (List.range ns.length).filterMap (wideSpecAt ns) := by
  rw [wideScan, wideScanAux_eq]
  exact filterMap_congr' _ _ _ (fun i _ => wideSpecD_none ns i)

/-- A parse-failing, caption-less table (attribution in the fallback scan
does not depend on the keyword gate or parse success). -/
def c5TableA : TableEl := ⟨[], [], none⟩

def c5TableB : TableEl := ⟨[], [(("x").data)], none⟩

/-- A document with no `h3` at all: a table before any heading, then an
`h2`, then another table. -/
def c5Doc : List Node :=
  [Node.table c5TableA, Node.h2 (("Аул").data), Node.other, Node.table c5TableB]

/-- C5 (witness): on `c5Doc` the sibling walk finds nothing, and the
fallback attributes the second table to the `h2` before it while skipping
the heading-less first table. -/
theorem c5_fallback_nearest_heading_witness :
    noSibTables c5Doc = true ∧ wideScan c5Doc = [((("Аул").data), c5TableB)] :=
  ⟨by decide, (c5_fallback_nearest_heading c5Doc (by decide)).trans (by decide)⟩

/-! ### Lemmas on the string normalizers -/

lemma trimR_cons (c : Char) (l : L) :
    trimR (c :: l) =
      match trimR l with
      | [] => if pyWs c then [] else [c]
      | r => c :: r := rfl

lemma dropWhile_head_false {p : Char → Bool} :
    ∀ {l t : List Char} {c : Char}, l.dropWhile p = c :: t → p c = false := by
  intro l
  induction l with
  | nil => intro t c h; cases h
  | cons a rest ih =>
    intro t c h
    by_cases hp : p a
    · exact ih (by simpa [List.dropWhile_cons, hp] using h)
    · simp only [List.dropWhile_cons, hp, Bool.false_eq_true, not_false_iff, ite_false,
        List.cons.injEq] at h
      rw [← h.1]
      simpa using hp

lemma trimLeft_idem (l : L) : trimLeft (trimLeft l) = trimLeft l := by
  cases h : trimLeft l with
  | nil => rfl
  | cons c t =>
    have hc : pyWs c = false := dropWhile_head_false (p := pyWs) h
    simp [trimLeft, List.dropWhile_cons, hc]

lemma trimR_nil : trimR ([] : L) = [] := rfl

lemma trimR_idem : ∀ l : L, trimR (trimR l) = trimR l := by
  intro l
  induction l with
  | nil => rfl
  | cons c rest ih =>
    rw [trimR_cons c rest]
    cases hm : trimR rest with
    | nil =>
      by_cases hc : pyWs c
      · simp only [hc, ite_true]
        rfl
      · simp only [hc, Bool.false_eq_true, not_false_iff, ite_false]
        simp [trimR_cons, trimR_nil, hc]
    | cons d t =>
      have ht : trimR (d :: t) = d :: t := by rw [← hm, ih, hm]
      rw [trimR_cons c (d :: t), ht]

lemma trimLeft_trimR_of {l : L} (h : trimLeft l = l) : trimLeft (trimR l) = trimR l := by
  cases l with
  | nil => rfl
  | cons c t =>
    have hc : pyWs c = false := dropWhile_head_false (p := pyWs) h
    rw [trimR_cons c t]
    cases hm : trimR t with
    | nil => simp [hc, trimLeft, List.dropWhile_cons]
    | cons d u => simp [trimLeft, List.dropWhile_cons, hc]

lemma trimLeft_trim (l : L) : trimLeft (trim l) = trim l :=
  trimLeft_trimR_of (trimLeft_idem l)

lemma trimR_trim (l : L) : trimR (trim l) = trim l := trimR_idem (trimLeft l)

lemma trim_trim (l : L) : trim (trim l) = trim l := by
  unfold trim
  rw [show trimLeft (trimR (trimLeft l)) = trimR (trimLeft l) from trimLeft_trim l]
  exact trimR_idem (trimLeft l)

lemma trimLeft_suffix (l : L) : ∃ u, l = u ++ trimLeft l := by
  induction l with
  | nil => exact ⟨[], rfl⟩
  | cons c rest ih =>
    by_cases hc : pyWs c
    · rcases ih with ⟨u, hu⟩
      exact ⟨c :: u, by simp [trimLeft, List.dropWhile_cons, hc]; simpa [trimLeft] using hu⟩
    · exact ⟨[], by simp [trimLeft, List.dropWhile_cons, hc]⟩

lemma trimR_append (l : L) : ∃ z, l = trimR l ++ z := by
  induction l with
  | nil => exact ⟨[], rfl⟩
  | cons c rest ih =>
    rcases ih with ⟨z, hz⟩
    rw [trimR_cons c rest]
    cases hm : trimR rest with
    | nil =>
      by_cases hc : pyWs c
      · exact ⟨c :: rest, by simp [hc]⟩
      · refine ⟨z, ?_⟩
        rw [hm] at hz
        simp only [hc, Bool.false_eq_true, not_false_iff, ite_false, List.singleton_append,
          List.cons.injEq, true_and]
        simpa using hz
    | cons d t =>
      refine ⟨z, ?_⟩
      rw [hm] at hz
      rw [List.cons_append]
      exact congrArg (c :: ·) hz

lemma parenStrip_cons (c : Char) (rest : L) :
    parenStrip (c :: rest) =
      if matchAtB (c :: rest) then [] else c :: parenStrip rest := rfl

lemma parenStrip_append : ∀ l : L, ∃ z, l = parenStrip l ++ z := by
  intro l
  induction l with
  | nil => exact ⟨[], rfl⟩
  | cons c rest ih =>
    by_cases h : matchAtB (c :: rest)
    · exact ⟨c :: rest, by rw [parenStrip_cons, if_pos h]; rfl⟩
    · rcases ih with ⟨z, hz⟩
      refine ⟨z, ?_⟩
      rw [parenStrip_cons, if_neg h, List.cons_append]
      exact congrArg (c :: ·) hz

lemma trimR_eq_self : ∀ l : L, (∀ c, l.getLast? = some c → pyWs c = false) → trimR l = l := by
  intro l
  induction l with
  | nil => intro _; rfl
  | cons c rest ih =>
    intro h
    cases rest with
    | nil =>
      have hc : pyWs c = false := h c rfl
      rw [trimR_cons, trimR_nil]
      simp [hc]
    | cons d t =>
      have hr : trimR (d :: t) = d :: t := by
        refine ih ?_
        intro e he
        exact h e (by rw [List.getLast?_cons_cons]; exact he)
      rw [trimR_cons c (d :: t), hr]

lemma mem_trimLeft {x : Char} {l : L} (h : x ∈ trimLeft l) : x ∈ l := by
  rcases trimLeft_suffix l with ⟨u, hu⟩
  rw [hu]
  exact List.mem_append_right u h

lemma mem_trimR {x : Char} {l : L} (h : x ∈ trimR l) : x ∈ l := by
  rcases trimR_append l with ⟨z, hz⟩
  rw [hz]
  exact List.mem_append_left z h

lemma mem_trim {x : Char} {l : L} (h : x ∈ trim l) : x ∈ l :=
  mem_trimLeft (mem_trimR h)

lemma mem_parenStrip {x : Char} {l : L} (h : x ∈ parenStrip l) : x ∈ l := by
  rcases parenStrip_append l with ⟨z, hz⟩
  rw [hz]
  exact List.mem_append_left z h

/-! ### Lemmas on `stripBrackets` -/

lemma sbF_cons (c : Char) (rest : L) :
    sbF (c :: rest) =
      (if c = ']' then (c :: (sbF rest).1, some (sbF rest).1)
       else if c = '[' then
         (match (sbF rest).2 with
          | some t => (t, (sbF rest).2)
          | none => (c :: (sbF rest).1, none))
       else (c :: (sbF rest).1, (sbF rest).2)) := rfl

lemma sbF_close (rest : L) : sbF (']' :: rest) = (']' :: (sbF rest).1, some (sbF rest).1) := by
  rw [sbF_cons, if_pos rfl]

lemma sbF_open_none {rest : L} (h : (sbF rest).2 = none) :
    sbF ('[' :: rest) = ('[' :: (sbF rest).1, none) := by
  rw [sbF_cons, if_neg (by decide : ¬(('[' : Char) = ']')), if_pos rfl, h]

lemma sbF_open_some {rest : L} {u : L} (h : (sbF rest).2 = some u) :
    sbF ('[' :: rest) = (u, some u) := by
  rw [sbF_cons, if_neg (by decide : ¬(('[' : Char) = ']')), if_pos rfl, h]

lemma sbF_other {c : Char} (h1 : c ≠ ']') (h2 : c ≠ '[') (rest : L) :
    sbF (c :: rest) = (c :: (sbF rest).1, (sbF rest).2) := by
  rw [sbF_cons, if_neg h1, if_neg h2]

lemma sbF_snd_mem : ∀ (l : L), (∀ x ∈ (sbF l).1, x ∈ l) ∧
    (∀ t, (sbF l).2 = some t → ∀ x ∈ t, x ∈ l) := by
  intro l
  induction l with
  | nil =>
    refine ⟨?_, ?_⟩
    · intro x hx
      cases hx
    · intro t ht
      cases ht
  | cons c rest ih =>
    by_cases hcl : c = ']'
    · subst hcl
      rw [sbF_close]
      refine ⟨?_, ?_⟩
      · intro x hx
        rcases List.mem_cons.mp hx with rfl | hx
        · exact List.mem_cons_self _ _
        · exact List.mem_cons_of_mem _ (ih.1 x hx)
      · intro t ht x hx
        cases ht
        exact List.mem_cons_of_mem _ (ih.1 x hx)
    · by_cases hco : c = '['
      · subst hco
        cases hsnd : (sbF rest).2 with
        | none =>
          rw [sbF_open_none hsnd]
          refine ⟨?_, ?_⟩
          · intro x hx
            rcases List.mem_cons.mp hx with rfl | hx
            · exact List.mem_cons_self _ _
            · exact List.mem_cons_of_mem _ (ih.1 x hx)
          · intro t ht
            cases ht
        | some u =>
          rw [sbF_open_some hsnd]
          refine ⟨?_, ?_⟩
          · intro x hx
            exact List.mem_cons_of_mem _ (ih.2 u hsnd x hx)
          · intro t ht x hx
            cases ht
            exact List.mem_cons_of_mem _ (ih.2 u hsnd x hx)
      · rw [sbF_other hcl hco]
        refine ⟨?_, ?_⟩
        · intro x hx
          rcases List.mem_cons.mp hx with rfl | hx
          · exact List.mem_cons_self _ _
          · exact List.mem_cons_of_mem _ (ih.1 x hx)
        · intro t ht x hx
          exact List.mem_cons_of_mem _ (ih.2 t ht x hx)

lemma mem_stripBrackets {x : Char} {l : L} (h : x ∈ stripBrackets l) : x ∈ l :=
  (sbF_snd_mem l).1 x h

lemma sbF_snd_none : ∀ l : L, (sbF l).2 = none ↔ (']' ∉ l) := by
  intro l
  induction l with
  | nil => simp [sbF]
  | cons c rest ih =>
    by_cases hcl : c = ']'
    · subst hcl
      rw [sbF_close]
      simp
    · by_cases hco : c = '['
      · subst hco
        cases hsnd : (sbF rest).2 with
        | none =>
          rw [sbF_open_none hsnd]
          simp only [hsnd, true_iff] at ih
          simp [hcl, ih]
        | some u =>
          rw [sbF_open_some hsnd]
          simp only [hsnd] at ih
          constructor
          · intro h
            cases h
          · intro h
            have : ']' ∉ rest := fun hm => h (List.mem_cons_of_mem _ hm)
            exact absurd (ih.mpr this) (by simp)
      · rw [sbF_other hcl hco]
        rw [List.mem_cons]
        constructor
        · intro h hmem
          rcases hmem with h' | h'
          · exact hcl h'.symm
          · exact (ih.mp h) h'
        · intro h
          exact ih.mpr (fun hm => h (Or.inr hm))

lemma not_mem_of_contains_false {l : L} {a : Char} (h : l.contains a = false) : a ∉ l := by
  intro hm
  have h2 : l.contains a = true := List.elem_iff.mpr hm
  rw [h] at h2
  cases h2

lemma contains_false_of_not_mem {l : L} {a : Char} (h : a ∉ l) : l.contains a = false := by
  cases h2 : l.contains a
  · rfl
  · exact absurd (List.elem_iff.mp h2) h

lemma cleanB_cons (c : Char) (rest : L) :
    cleanB (c :: rest) = (((c != '[') || !(rest.contains (']'))) && cleanB rest) := rfl

lemma cleanB_tail {c : Char} {rest : L} (h : cleanB (c :: rest) = true) : cleanB rest = true := by
  rw [cleanB_cons, Bool.and_eq_true] at h
  exact h.2

lemma cleanB_head {c : Char} {rest : L} (h : cleanB (c :: rest) = true) :
    c = '[' → (']' ∉ rest) := by
  intro hc
  subst hc
  rw [cleanB_cons, Bool.and_eq_true, Bool.or_eq_true] at h
  rcases h.1 with h1 | h1
  · simp at h1
  · exact not_mem_of_contains_false (by simpa using h1)

lemma cleanB_cons_of {c : Char} {rest : L} (h1 : c = '[' → (']' ∉ rest))
    (h2 : cleanB rest = true) : cleanB (c :: rest) = true := by
  rw [cleanB_cons, Bool.and_eq_true, Bool.or_eq_true]
  refine ⟨?_, h2⟩
  by_cases hc : c = '['
  · right
    simpa using contains_false_of_not_mem (h1 hc)
  · left
    simpa [bne_iff_ne] using hc

lemma cleanB_append_left : ∀ {x y : L}, cleanB (x ++ y) = true → cleanB x = true := by
  intro x
  induction x with
  | nil => intro y _; rfl
  | cons c x' ih =>
    intro y h
    rw [List.cons_append] at h
    refine cleanB_cons_of ?_ (ih (cleanB_tail h))
    intro hc
    exact fun hm => cleanB_head h hc (List.mem_append_left y hm)

lemma cleanB_append_right : ∀ {x y : L}, cleanB (x ++ y) = true → cleanB y = true := by
  intro x
  induction x with
  | nil => intro y h; exact h
  | cons c x' ih =>
    intro y h
    rw [List.cons_append] at h
    exact ih (cleanB_tail h)

lemma cleanB_sbF : ∀ l : L, cleanB (sbF l).1 = true ∧
    (∀ t, (sbF l).2 = some t → cleanB t = true) := by
  intro l
  induction l with
  | nil =>
    refine ⟨rfl, ?_⟩
    intro t ht
    cases ht
  | cons c rest ih =>
    by_cases hcl : c = ']'
    · subst hcl
      rw [sbF_close]
      refine ⟨?_, ?_⟩
      · exact cleanB_cons_of (fun h => absurd h (by decide)) ih.1
      · intro t ht
        cases ht
        exact ih.1
    · by_cases hco : c = '['
      · subst hco
        cases hsnd : (sbF rest).2 with
        | none =>
          rw [sbF_open_none hsnd]
          refine ⟨?_, ?_⟩
          · refine cleanB_cons_of ?_ ih.1
            intro _ hm
            exact ((sbF_snd_none rest).mp hsnd) ((sbF_snd_mem rest).1 ']' hm)
          · intro t ht
            cases ht
        | some u =>
          rw [sbF_open_some hsnd]
          refine ⟨ih.2 u hsnd, ?_⟩
          intro t ht
          cases ht
          exact ih.2 u hsnd
      · rw [sbF_other hcl hco]
        refine ⟨cleanB_cons_of (fun h => absurd h hco) ih.1, ?_⟩
        intro t ht
        exact ih.2 t ht

lemma stripBrackets_clean (l : L) : cleanB (stripBrackets l) = true := (cleanB_sbF l).1

lemma stripBrackets_of_clean : ∀ {l : L}, cleanB l = true → stripBrackets l = l := by
  intro l
  induction l with
  | nil => intro _; rfl
  | cons c rest ih =>
    intro h
    have htail : stripBrackets rest = rest := ih (cleanB_tail h)
    by_cases hco : c = '['
    · subst hco
      have hnc : ']' ∉ rest := cleanB_head h rfl
      have hsnd : (sbF rest).2 = none := (sbF_snd_none rest).mpr hnc
      show (sbF ('[' :: rest)).1 = '[' :: rest
      rw [sbF_open_none hsnd]
      exact congrArg ('[' :: ·) htail
    · by_cases hcl : c = ']'
      · subst hcl
        show (sbF (']' :: rest)).1 = ']' :: rest
        rw [sbF_close]
        exact congrArg (']' :: ·) htail
      · show (sbF (c :: rest)).1 = c :: rest
        rw [sbF_other hcl hco]
        exact congrArg (c :: ·) htail

lemma stripBrackets_idem (l : L) : stripBrackets (stripBrackets l) = stripBrackets l :=
  stripBrackets_of_clean (stripBrackets_clean l)

lemma cleanB_trimLeft {l : L} (h : cleanB l = true) : cleanB (trimLeft l) = true := by
  rcases trimLeft_suffix l with ⟨u, hu⟩
  exact cleanB_append_right (hu ▸ h)

lemma cleanB_trimR {l : L} (h : cleanB l = true) : cleanB (trimR l) = true := by
  rcases trimR_append l with ⟨z, hz⟩
  exact cleanB_append_left (hz ▸ h)

lemma cleanB_trim {l : L} (h : cleanB l = true) : cleanB (trim l) = true :=
  cleanB_trimR (cleanB_trimLeft h)

lemma cleanB_parenStrip {l : L} (h : cleanB l = true) : cleanB (parenStrip l) = true := by
  rcases parenStrip_append l with ⟨z, hz⟩
  exact cleanB_append_left (hz ▸ h)

/-! ### The trailing-parenthetical pattern -/

lemma getLast?_of_ne_nil : ∀ (l : L), l ≠ [] → l.getLast? = some (l.getLastD 'x') := by
  intro l
  induction l with
  | nil => intro h; exact absurd rfl h
  | cons a t ih =>
    intro _
    cases t with
    | nil => rfl
    | cons b u =>
      rw [List.getLast?_cons_cons, ih (by simp)]
      simp [List.getLastD_cons]

lemma getLastD_of_getLast? {l : L} {e : Char} (h : l.getLast? = some e) :
    l.getLastD 'x' = e := by
  cases l with
  | nil => cases h
  | cons a t =>
    have h2 := getLast?_of_ne_nil (a :: t) (by simp)
    rw [h] at h2
    exact (Option.some.injEq _ _).mp h2.symm

lemma getLast?_decomp : ∀ (l : L) (e : Char), l.getLast? = some e → ∃ u, l = u ++ [e] := by
  intro l
  induction l with
  | nil => intro e h; cases h
  | cons a t ih =>
    intro e h
    cases t with
    | nil =>
      cases h
      exact ⟨[], rfl⟩
    | cons b u =>
      rw [List.getLast?_cons_cons] at h
      rcases ih e h with ⟨u', hu⟩
      exact ⟨a :: u', by rw [List.cons_append, ← hu]⟩

lemma getLast?_append_right {x y : L} (hy : y ≠ []) : (x ++ y).getLast? = y.getLast? := by
  induction x with
  | nil => rfl
  | cons a t ih =>
    rw [List.cons_append]
    cases hc : t ++ y with
    | nil =>
      rcases List.append_eq_nil.mp hc with ⟨_, h2⟩
      exact absurd h2 hy
    | cons b u =>
      rw [List.getLast?_cons_cons, ← hc, ih]

lemma dropWhile_append_all {p : Char → Bool} :
    ∀ {w u : L}, (∀ c ∈ w, p c = true) → (w ++ u).dropWhile p = u.dropWhile p := by
  intro w
  induction w with
  | nil => intro u _; rfl
  | cons a t ih =>
    intro u h
    rw [List.cons_append, List.dropWhile_cons, if_pos (h a (List.mem_cons_self a t))]
    exact ih (fun c hc => h c (List.mem_cons_of_mem a hc))

lemma matchAtB_cons (c : Char) (rest : L) :
    matchAtB (c :: rest) =
      (pyWs c &&
        (match (c :: rest).dropWhile pyWs with
         | d :: tail =>
           d == '(' && !tail.isEmpty && tail.getLastD 'x' == ')' && !tail.contains ('\n')
         | [] => false)) := rfl

lemma matchAtB_iff {t : L} :
    matchAtB t = true ↔
      ∃ w z, t = w ++ '(' :: z ∧ w ≠ [] ∧ (∀ c ∈ w, pyWs c = true) ∧ z ≠ [] ∧
        z.getLast? = some ')' ∧ (('\n') ∉ z) := by
  constructor
  · intro h
    cases t with
    | nil => cases h
    | cons c t' =>
      rw [matchAtB_cons, Bool.and_eq_true] at h
      rcases h with ⟨hc, hin⟩
      cases hd : (c :: t').dropWhile pyWs with
      | nil => rw [hd] at hin; cases hin
      | cons d tail =>
        rw [hd] at hin
        simp only [Bool.and_eq_true, beq_iff_eq, Bool.not_eq_true'] at hin
        rcases hin with ⟨⟨⟨hdp, hne⟩, hlast⟩, hcontains⟩
        refine ⟨(c :: t').takeWhile pyWs, tail, ?_, ?_, ?_, ?_, ?_, ?_⟩
        · rw [← hdp]
          conv_lhs => rw [← List.takeWhile_append_dropWhile (p := pyWs) (l := c :: t')]
          rw [hd]
        · rw [List.takeWhile_cons, if_pos hc]
          simp
        · intro x hx
          exact List.mem_takeWhile_imp hx
        · intro hnil
          rw [hnil] at hne
          cases hne
        · rw [getLast?_of_ne_nil tail (by intro hnil; rw [hnil] at hne; cases hne), hlast]
        · exact not_mem_of_contains_false hcontains
  · rintro ⟨w, z, rfl, hw, hws, hz, hzl, hzn⟩
    cases w with
    | nil => exact absurd rfl hw
    | cons w0 w' =>
      rw [List.cons_append, matchAtB_cons, Bool.and_eq_true]
      refine ⟨hws w0 (List.mem_cons_self w0 w'), ?_⟩
      have hdw : (w0 :: (w' ++ '(' :: z)).dropWhile pyWs = '(' :: z := by
        rw [show w0 :: (w' ++ '(' :: z) = (w0 :: w') ++ '(' :: z from rfl,
          dropWhile_append_all hws, List.dropWhile_cons, if_neg (by decide)]
      rw [hdw]
      simp only [Bool.and_eq_true, beq_iff_eq, Bool.not_eq_true']
      refine ⟨⟨⟨(by trivial), ?_⟩, getLastD_of_getLast? hzl⟩, contains_false_of_not_mem hzn⟩
      exact (by cases z with
        | nil => exact absurd rfl hz
        | cons a t => rfl)

lemma matchAtB_cons_ws {c : Char} {t : L} (hc : pyWs c = true) (h : matchAtB t = true) :
    matchAtB (c :: t) = true := by
  rcases matchAtB_iff.mp h with ⟨w, z, rfl, hw, hws, hz, hzl, hzn⟩
  refine matchAtB_iff.mpr ⟨c :: w, z, rfl, by simp, ?_, hz, hzl, hzn⟩
  intro x hx
  rcases List.mem_cons.mp hx with rfl | hx
  · exact hc
  · exact hws x hx

lemma matchAtB_append {x y : L} (hx : matchAtB x = true) (hy : matchAtB y = true)
    (hyn : ('\n') ∉ y) : matchAtB (x ++ y) = true := by
  rcases matchAtB_iff.mp hx with ⟨w, z, rfl, hw, hws, hz, hzl, hzn⟩
  have hyne : y ≠ [] := by
    rcases matchAtB_iff.mp hy with ⟨w', z', rfl, hw', _, _, _, _⟩
    cases w' with
    | nil => exact absurd rfl hw'
    | cons a t => simp
  have hylast : y.getLast? = some ')' := by
    rcases matchAtB_iff.mp hy with ⟨w', z', rfl, _, _, hz', hzl', _⟩
    rw [getLast?_append_right (by simp), ← hzl']
    cases z' with
    | nil => exact absurd rfl hz'
    | cons a t => rw [List.getLast?_cons_cons]
  refine matchAtB_iff.mpr ⟨w, z ++ y, ?_, hw, hws, by simp [hyne], ?_, ?_⟩
  · rw [List.append_assoc, List.cons_append]
  · rw [getLast?_append_right hyne, hylast]
  · intro hmem
    rcases List.mem_append.mp hmem with hm | hm
    · exact hzn hm
    · exact hyn hm

/-- Split form: `parenStrip` either finds no match and is the identity, or cuts the
string at the leftmost matching position: every strictly earlier suffix
fails the pattern. -/
lemma ps_split : ∀ l : L,
    parenStrip l = l ∨
      ∃ a c b, l = a ++ c :: b ∧ matchAtB (c :: b) = true ∧ parenStrip l = a ∧
        ∀ a1 c1 b1, a = a1 ++ c1 :: b1 → matchAtB (c1 :: (b1 ++ c :: b)) = false := by
  intro l
  induction l with
  | nil => exact Or.inl rfl
  | cons x rest ih =>
    by_cases hm : matchAtB (x :: rest)
    · refine Or.inr ⟨[], x, rest, rfl, hm, ?_, ?_⟩
      · rw [parenStrip_cons, if_pos hm]
      · intro a1 c1 b1 h
        exact absurd h (by cases a1 <;> simp)
    · rcases ih with hid | ⟨a, c, b, heq, hma, hps, hmin⟩
      · refine Or.inl ?_
        rw [parenStrip_cons, if_neg hm, hid]
      · refine Or.inr ⟨x :: a, c, b, ?_, hma, ?_, ?_⟩
        · rw [List.cons_append, ← heq]
        · rw [parenStrip_cons, if_neg hm, hps]
        · intro a1 c1 b1 h
          cases a1 with
          | nil =>
            simp only [List.nil_append, List.cons.injEq] at h
            rcases h with ⟨rfl, rfl⟩
            rw [← heq]
            exact Bool.of_not_eq_true hm
          | cons y a1' =>
            simp only [List.cons_append, List.cons.injEq] at h
            exact hmin a1' c1 b1 h.2

/-- Second applications of `parenStrip` find nothing: for a newline-free
string the transform is idempotent. (With an embedded newline this can
fail — and does fail in Python — but newline-free is an invariant of the
strings this pipeline feeds to it.) -/
lemma parenStrip_idem {l : L} (h : ('\n') ∉ l) :
    parenStrip (parenStrip l) = parenStrip l := by
  rcases ps_split l with hid | ⟨a, c, b, heq, hma, hps, hmin⟩
  · rw [hid, hid]
  · rw [hps]
    rcases ps_split a with hid' | ⟨a1, c1, b1, heq1, hma1, _, _⟩
    · exact hid'
    · exfalso
      have hnb : ('\n') ∉ c :: b := by
        intro hmem
        exact h (heq ▸ List.mem_append_right a hmem)
      have hcat : matchAtB ((c1 :: b1) ++ c :: b) = true := matchAtB_append hma1 hma hnb
      rw [List.cons_append] at hcat
      rw [hmin a1 c1 b1 heq1] at hcat
      cases hcat

/-- Application of `parenStrip` to a whitespace-trimmed string is whitespace-trimmed: the
cut cannot end in whitespace since the match would then start one position
earlier. -/
lemma parenStrip_trimmed {m : L} (h1 : trimLeft m = m) (h2 : trimR m = m) :
    trimLeft (parenStrip m) = parenStrip m ∧ trimR (parenStrip m) = parenStrip m := by
  rcases ps_split m with hid | ⟨a, c, b, heq, hma, hps, hmin⟩
  · rw [hid]
    exact ⟨h1, h2⟩
  · rw [hps]
    constructor
    · cases ha : a with
      | nil => rfl
      | cons a0 a' =>
        have hm0 : pyWs a0 = false := by
          have : m.dropWhile pyWs = a0 :: (a' ++ c :: b) := by
            rw [show m.dropWhile pyWs = trimLeft m from rfl, h1, heq, ha, List.cons_append]
          exact dropWhile_head_false this
        rw [trimLeft, List.dropWhile_cons, if_neg (by simp [hm0])]
    · refine trimR_eq_self a ?_
      intro e he
      rcases getLast?_decomp a e he with ⟨u, rfl⟩
      by_contra hws
      have hwse : pyWs e = true := by simpa using hws
      have hext : matchAtB (e :: ([] ++ c :: b)) = true := by
        rw [List.nil_append]
        exact matchAtB_cons_ws hwse hma
      rw [hmin u e [] rfl] at hext
      cases hext

/-! ### Idempotence of the full normalization (C8) -/

lemma trimR_append_ws {e : Char} (he : pyWs e = true) :
    ∀ u : L, trimR (u ++ [e]) = trimR u := by
  intro u
  induction u with
  | nil => simp [trimR_cons, trimR_nil, he]
  | cons c t ih =>
    rw [List.cons_append, trimR_cons c (t ++ [e]), ih, ← trimR_cons c t]

lemma trimR_length_le (l : L) : (trimR l).length ≤ l.length := by
  rcases trimR_append l with ⟨z, hz⟩
  have h2 := congrArg List.length hz
  rw [List.length_append] at h2
  omega

lemma trimR_last {l : L} (h : trimR l = l) {e : Char} (he : l.getLast? = some e) :
    pyWs e = false := by
  by_contra hws
  have hwse : pyWs e = true := by simpa using hws
  rcases getLast?_decomp l e he with ⟨u, rfl⟩
  have h2 : trimR (u ++ [e]) = trimR u := trimR_append_ws hwse u
  rw [h] at h2
  have h3 : (u ++ [e]).length ≤ u.length := h2 ▸ trimR_length_le u
  simp at h3

lemma dropWhile_suffix' (p : Char → Bool) (l : L) : ∃ u, l = u ++ l.dropWhile p := by
  induction l with
  | nil => exact ⟨[], rfl⟩
  | cons c rest ih =>
    by_cases hc : p c
    · rcases ih with ⟨u, hu⟩
      refine ⟨c :: u, ?_⟩
      rw [List.dropWhile_cons, if_pos hc, List.cons_append, ← hu]
    · exact ⟨[], by rw [List.dropWhile_cons, if_neg hc, List.nil_append]⟩

lemma suffix_trimR {x r : L} (hx : trimR x = x) (hsuf : ∃ u, x = u ++ r) : trimR r = r := by
  refine trimR_eq_self r ?_
  intro e he
  rcases hsuf with ⟨u, rfl⟩
  have hr : r ≠ [] := by
    intro hnil
    rw [hnil] at he
    cases he
  have hl : (u ++ r).getLast? = some e := by rw [getLast?_append_right hr, he]
  exact trimR_last hx hl

lemma dropLit_suffix : ∀ (p x y : L), dropLit p x = some y → ∃ u, x = u ++ y := by
  intro p
  induction p with
  | nil =>
    intro x y h
    cases h
    exact ⟨[], rfl⟩
  | cons pc ps ih =>
    intro x y h
    cases x with
    | nil => cases h
    | cons c cs =>
      by_cases hpc : pc = c
      · simp only [dropLit, if_pos hpc] at h
        rcases ih cs y h with ⟨u, hu⟩
        exact ⟨c :: u, by rw [List.cons_append, ← hu]⟩
      · simp only [dropLit, if_neg hpc] at h
        cases h

lemma dashSkip_suffix (l : L) : ∃ v, l = v ++ dashSkip l := by
  cases l with
  | nil => exact ⟨[], rfl⟩
  | cons c rr =>
    by_cases hc : c = '-'
    · exact ⟨[c], by simp [dashSkip, hc]⟩
    · exact ⟨[], by simp [dashSkip, hc]⟩

lemma wsPlus_some {x y : L} (h : wsPlus x = some y) :
    (∃ u, x = u ++ y) ∧ trimLeft y = y := by
  cases x with
  | nil => cases h
  | cons c rest =>
    by_cases hc : pyWs c
    · simp only [wsPlus, if_pos hc, Option.some.injEq] at h
      subst h
      constructor
      · rcases dropWhile_suffix' pyWs rest with ⟨u, hu⟩
        exact ⟨c :: u, by rw [List.cons_append, ← hu]⟩
      · exact trimLeft_idem rest
    · simp only [wsPlus, if_neg hc] at h
      cases h

lemma kurortMatch_some {l r : L} (h : kurortMatch l = some r) :
    (∃ u, l = u ++ r) ∧ trimLeft r = r := by
  unfold kurortMatch at h
  cases h1 : dropLit (("город").data) (l.dropWhile pyWs) with
  | none => rw [h1] at h; cases h
  | some r1 =>
    rw [h1, Option.some_bind] at h
    cases h2 : dropLit (("курорт").data) (dashSkip r1) with
    | none => rw [h2] at h; cases h
    | some r3 =>
      rw [h2, Option.some_bind] at h
      obtain ⟨⟨u4, hu4⟩, hy⟩ := wsPlus_some h
      refine ⟨?_, hy⟩
      rcases dropWhile_suffix' pyWs l with ⟨u0, hu0⟩
      rcases dropLit_suffix _ _ _ h1 with ⟨u1, hu1⟩
      rcases dashSkip_suffix r1 with ⟨v, hv⟩
      rcases dropLit_suffix _ _ _ h2 with ⟨u3, hu3⟩
      refine ⟨u0 ++ (u1 ++ (v ++ (u3 ++ u4))), ?_⟩
      rw [hu0, hu1, hv, hu3, hu4]
      simp [List.append_assoc]

lemma gorodMatch_some {l r : L} (h : gorodMatch l = some r) :
    (∃ u, l = u ++ r) ∧ trimLeft r = r := by
  unfold gorodMatch at h
  cases h1 : dropLit (("город").data) (l.dropWhile pyWs) with
  | none => rw [h1] at h; cases h
  | some r1 =>
    rw [h1, Option.some_bind] at h
    obtain ⟨⟨u2, hu2⟩, hy⟩ := wsPlus_some h
    refine ⟨?_, hy⟩
    rcases dropWhile_suffix' pyWs l with ⟨u0, hu0⟩
    rcases dropLit_suffix _ _ _ h1 with ⟨u1, hu1⟩
    refine ⟨u0 ++ (u1 ++ u2), ?_⟩
    rw [hu0, hu1, hu2]
    simp [List.append_assoc]

lemma distNormFull_trimmed (d : L) :
    trimLeft (distNormFull d) = distNormFull d ∧ trimR (distNormFull d) = distNormFull d := by
  have hmL : trimLeft (normalize_unit_title d) = normalize_unit_title d := by
    cases hm : normalize_unit_title d with
    | nil => rfl
    | cons c t =>
      have hstep : (trim d).dropWhile (fun c => c = '#' || pyWs c) = c :: t := by
        rw [show (trim d).dropWhile (fun c => c = '#' || pyWs c) = normalize_unit_title d
          from rfl, hm]
      have hcls := dropWhile_head_false hstep
      have hcw : pyWs c = false := by
        simp only [Bool.or_eq_false_iff] at hcls
        exact hcls.2
      rw [trimLeft, List.dropWhile_cons, if_neg (by simp [hcw])]
  have hmR : trimR (normalize_unit_title d) = normalize_unit_title d :=
    suffix_trimR (trimR_trim d) (dropWhile_suffix' _ (trim d))
  have hk : trimLeft (stripKurort (normalize_unit_title d)) =
        stripKurort (normalize_unit_title d) ∧
      trimR (stripKurort (normalize_unit_title d)) = stripKurort (normalize_unit_title d) := by
    unfold stripKurort
    cases hkm : kurortMatch (normalize_unit_title d) with
    | none => exact ⟨hmL, hmR⟩
    | some r =>
      obtain ⟨hsuf, hL⟩ := kurortMatch_some hkm
      exact ⟨hL, suffix_trimR hmR hsuf⟩
  unfold distNormFull stripGorod
  cases hgm : gorodMatch (stripKurort (normalize_unit_title d)) with
  | none => exact hk
  | some r =>
    obtain ⟨hsuf, hL⟩ := gorodMatch_some hgm
    exact ⟨hL, suffix_trimR hk.2 hsuf⟩

lemma distNormFull_idem {d : L} (hh : (distNormFull d).head? ≠ some '#')
    (hk : kurortMatch (distNormFull d) = none) (hg : gorodMatch (distNormFull d) = none) :
    distNormFull (distNormFull d) = distNormFull d := by
  obtain ⟨hL, hR⟩ := distNormFull_trimmed d
  have htrim : trim (distNormFull d) = distNormFull d := by rw [trim, hL, hR]
  have hnut : normalize_unit_title (distNormFull d) = distNormFull d := by
    rw [normalize_unit_title, htrim]
    cases hgc : distNormFull d with
    | nil => rfl
    | cons c t =>
      have hL' := hL
      rw [hgc] at hL'
      have hcw : pyWs c = false :=
        dropWhile_head_false (show (c :: t).dropWhile pyWs = c :: t from hL')
      have hch : ¬(c = '#') := by
        intro hc
        subst hc
        exact hh (by rw [hgc]; rfl)
      rw [List.dropWhile_cons, if_neg (by simp [hcw, hch])]
  show stripGorod (stripKurort (normalize_unit_title (distNormFull d))) = distNormFull d
  rw [hnut, stripKurort, hk, stripGorod, hg]

lemma settleNormFull_idem {s : L} (h : ('\n') ∉ s) :
    settleNormFull (settleNormFull s) = settleNormFull s := by
  simp only [settleNormFull]
  have hm1 : trimLeft (trim (stripBrackets (trim s))) = trim (stripBrackets (trim s)) :=
    trimLeft_trim _
  have hm2 : trimR (trim (stripBrackets (trim s))) = trim (stripBrackets (trim s)) :=
    trimR_trim _
  have hmc : cleanB (trim (stripBrackets (trim s))) = true :=
    cleanB_trim (stripBrackets_clean _)
  have hmn : ('\n') ∉ trim (stripBrackets (trim s)) :=
    fun hx => h (mem_trim (mem_stripBrackets (mem_trim hx)))
  obtain ⟨hn1, hn2⟩ := parenStrip_trimmed hm1 hm2
  have htr : trim (parenStrip (trim (stripBrackets (trim s)))) =
      parenStrip (trim (stripBrackets (trim s))) := by rw [trim, hn1, hn2]
  rw [htr, stripBrackets_of_clean (cleanB_parenStrip hmc), htr, parenStrip_idem hmn]

/-- C8 (counterexample): normalization is not idempotent. The district
prefixes are stripped once, not to a fixed point: "город город Сочи"
normalizes to "город Сочи", and normalizing that again yields "Сочи". -/
theorem c8_idem_counterexample :
    normRecordFull (normRecordFull
        ⟨(("р").data), (("город город Сочи").data), (("Адлер").data)⟩) ≠
      normRecordFull ⟨(("р").data), (("город город Сочи").data), (("Адлер").data)⟩ := by
  decide

/-- C8 (amended): the full normalization sequence is idempotent on the
settlement field for newline-free strings, and on the district field
provided the once-normalized district does not itself start with '#' or
with a further strippable "город"/"город-курорт" prefix (the prefix
replaces are applied once, not to a fixed point). -/
theorem c8_normalization_idem (r : Record) (h1 : ('\n') ∉ r.settlement)
    (h2 : (distNormFull r.district).head? ≠ some '#')
    (h3 : kurortMatch (distNormFull r.district) = none)
    (h4 : gorodMatch (distNormFull r.district) = none) :
    normRecordFull (normRecordFull r) = normRecordFull r := by
  simp only [normRecordFull, Record.mk.injEq]
  exact ⟨(by trivial), distNormFull_idem h2 h3 h4, settleNormFull_idem h1⟩

/-- C8 (amended, witness): a record with district "город Сочи" and
settlement " Адлер[1] (аул) " satisfies the side conditions and is
normalized idempotently. -/
theorem c8_normalization_idem_witness :
    (('\n') ∉ (Record.mk (("Регион").data) (("город Сочи").data)
        ((" Адлер[1] (аул) ").data)).settlement) ∧
      (distNormFull (("город Сочи").data)).head? ≠ some '#' ∧
      kurortMatch (distNormFull (("город Сочи").data)) = none ∧
      gorodMatch (distNormFull (("город Сочи").data)) = none ∧
      normRecordFull (normRecordFull (Record.mk (("Регион").data) (("город Сочи").data)
          ((" Адлер[1] (аул) ").data))) =
        normRecordFull (Record.mk (("Регион").data) (("город Сочи").data)
          ((" Адлер[1] (аул) ").data)) :=
  ⟨by decide, by decide, by decide, by decide,
    c8_normalization_idem
      (Record.mk (("Регион").data) (("город Сочи").data) ((" Адлер[1] (аул) ").data))
      (by decide) (by decide) (by decide) (by decide)⟩

/-! ### Membership through the pipeline (C3, C4) -/

lemma mem_insSorted_of {x r : Record} : ∀ {l : List Record}, x ∈ insSorted r l → x = r ∨ x ∈ l := by
  intro l
  induction l with
  | nil =>
    intro h
    rcases List.mem_cons.mp h with rfl | h
    · exact Or.inl rfl
    · cases h
  | cons y ys ih =>
    intro h
    simp only [insSorted] at h
    by_cases hle : keyLe y r
    · rw [if_pos hle] at h
      rcases List.mem_cons.mp h with rfl | h
      · exact Or.inr (List.mem_cons_self _ _)
      · rcases ih h with h' | h'
        · exact Or.inl h'
        · exact Or.inr (List.mem_cons_of_mem _ h')
    · rw [if_neg hle] at h
      rcases List.mem_cons.mp h with rfl | h
      · exact Or.inl rfl
      · exact Or.inr h

lemma mem_insSorted_self (r : Record) : ∀ l : List Record, r ∈ insSorted r l := by
  intro l
  induction l with
  | nil => exact List.mem_cons_self _ _
  | cons y ys ih =>
    simp only [insSorted]
    by_cases hle : keyLe y r
    · rw [if_pos hle]
      exact List.mem_cons_of_mem _ ih
    · rw [if_neg hle]
      exact List.mem_cons_self _ _

lemma mem_insSorted_weaken {x r : Record} {l : List Record} (h : x ∈ l) : x ∈ insSorted r l := by
  induction l with
  | nil => cases h
  | cons y ys ih =>
    simp only [insSorted]
    by_cases hle : keyLe y r
    · rw [if_pos hle]
      rcases List.mem_cons.mp h with rfl | h'
      · exact List.mem_cons_self _ _
      · exact List.mem_cons_of_mem _ (ih h')
    · rw [if_neg hle]
      exact List.mem_cons_of_mem _ h

lemma mem_sortRecs_aux : ∀ (l acc : List Record) (x : Record),
    x ∈ l.foldl (fun a r => insSorted r a) acc → x ∈ acc ∨ x ∈ l := by
  intro l
  induction l with
  | nil =>
    intro acc x h
    exact Or.inl h
  | cons r rest ih =>
    intro acc x h
    rw [List.foldl_cons] at h
    rcases ih (insSorted r acc) x h with h' | h'
    · rcases mem_insSorted_of h' with rfl | h''
      · exact Or.inr (List.mem_cons_self _ _)
      · exact Or.inl h''
    · exact Or.inr (List.mem_cons_of_mem _ h')

lemma mem_sortRecs {x : Record} {l : List Record} (h : x ∈ sortRecs l) : x ∈ l := by
  rcases mem_sortRecs_aux l [] x h with h' | h'
  · cases h'
  · exact h'

lemma mem_dedupSeen : ∀ {l seen : List Record} {r : Record}, r ∈ dedupSeen seen l → r ∈ l := by
  intro l
  induction l with
  | nil =>
    intro seen r h
    cases h
  | cons x rest ih =>
    intro seen r h
    simp only [dedupSeen] at h
    by_cases hx : x ∈ seen
    · rw [if_pos hx] at h
      exact List.mem_cons_of_mem _ (ih h)
    · rw [if_neg hx] at h
      rcases List.mem_cons.mp h with rfl | h'
      · exact List.mem_cons_self _ _
      · exact List.mem_cons_of_mem _ (ih h')

lemma processCell_eq_some {v s : L} (h : processCell v = some s) :
    trim v ≠ [] ∧ trim v ≠ (("—").data) ∧ s = trim (stripBrackets (trim v)) := by
  by_cases hg : (trim v).isEmpty || trim v == (("—").data)
  · rw [processCell, if_pos hg] at h
    cases h
  · rw [processCell, if_neg hg] at h
    simp only [Bool.or_eq_true, not_or, Bool.not_eq_true] at hg
    refine ⟨?_, ?_, (Option.some.injEq _ _).mp h.symm⟩
    · intro hnil
      rw [hnil] at hg
      simp at hg
    · intro heq
      rw [heq] at hg
      simp at hg

lemma walkSpan_uls : ∀ (ns : List Node) (its : List L),
    its ∈ (walkSpan ns).2 → ∃ raw, its = ulItems raw := by
  intro ns
  induction ns with
  | nil =>
    intro its h
    cases h
  | cons n rest ih =>
    intro its h
    cases n with
    | h2 t => cases h
    | h3 t => cases h
    | table tb =>
      simp only [walkSpan] at h
      by_cases hc : tableCond tb
      · rw [if_pos hc] at h
        cases hg : tb.grid with
        | some g =>
          rw [hg] at h
          exact ih its h
        | none =>
          rw [hg] at h
          exact ih its h
      · rw [if_neg hc] at h
        exact ih its h
    | ul items =>
      simp only [walkSpan] at h
      by_cases hi : (ulItems items).isEmpty
      · rw [if_pos hi] at h
        exact ih its h
      · rw [if_neg hi] at h
        rcases List.mem_cons.mp h with rfl | h'
        · exact ⟨items, rfl⟩
        · exact ih its h'
    | other => exact ih its h

lemma extract_uls : ∀ (ns : List Node) (seg : L × List Grid × List (List L)),
    seg ∈ extract_tables_by_h3 ns → ∀ its ∈ seg.2.2, ∃ raw, its = ulItems raw := by
  intro ns
  induction ns with
  | nil =>
    intro seg h
    cases h
  | cons n rest ih =>
    intro seg h its hits
    cases n with
    | h3 t =>
      simp only [extract_tables_by_h3] at h
      by_cases he : (walkSpan rest).1.isEmpty && (walkSpan rest).2.isEmpty
      · rw [if_pos he] at h
        exact ih seg h its hits
      · rw [if_neg he] at h
        rcases List.mem_cons.mp h with rfl | h'
        · exact walkSpan_uls rest its hits
        · exact ih seg h' its hits
    | h2 t => exact ih seg h its hits
    | table tb => exact ih seg h its hits
    | ul items => exact ih seg h its hits
    | other => exact ih seg h its hits

/-- Every record the harvester emits has a settlement of the shape
`trim (stripBrackets w)` for some raw cell or list-item text `w`. -/
lemma harvest_settlement_shape {reg : L} {ns : List Node} {r : Record}
    (h : r ∈ harvest_region reg ns) : ∃ w, r.settlement = trim (stripBrackets w) := by
  have h1 : r ∈ ((extract_tables_by_h3 ns).map (segRecords reg)).flatten := mem_dedupSeen h
  rcases List.mem_flatten.mp h1 with ⟨block, hblock, hr⟩
  rcases List.mem_map.mp hblock with ⟨seg, hseg, rfl⟩
  rcases List.mem_append.mp hr with htab | hul
  · rcases List.mem_flatten.mp htab with ⟨gl, hgl, hrg⟩
    rcases List.mem_map.mp hgl with ⟨g, _, rfl⟩
    rcases hpc : pickColumn g with _ | i
    · rw [gridRecords, hpc] at hrg
      cases hrg
    · rw [gridRecords, hpc] at hrg
      rcases List.mem_filterMap.mp hrg with ⟨row, _, hrow⟩
      rcases Option.map_eq_some.mp hrow with ⟨s, hps, rfl⟩
      rcases processCell_eq_some hps with ⟨_, _, hs⟩
      exact ⟨trim (cellAt row i), hs⟩
  · rcases List.mem_flatten.mp hul with ⟨ul, hulm, hru⟩
    rcases List.mem_map.mp hulm with ⟨its, hits, rfl⟩
    rcases List.mem_filterMap.mp hru with ⟨name, hname, hopt⟩
    rcases extract_uls ns seg hseg its hits with ⟨raw, rfl⟩
    rcases List.mem_map.mp hname with ⟨it, _, hit⟩
    split at hopt
    · cases hopt
    · cases hopt
      exact ⟨it, hit.symm⟩

lemma collectFrames_mem : ∀ (ps : List (L × Except LoadErr (List Node)))
    (rows : List Record), collectFrames ps = Except.ok rows →
      ∀ r ∈ rows, ∃ reg doc, r ∈ harvest_region reg doc := by
  intro ps
  induction ps with
  | nil =>
    intro rows h r hr
    cases h
    cases hr
  | cons p rest ih =>
    intro rows h r hr
    rcases p with ⟨reg, res⟩
    cases res with
    | error e => cases h
    | ok doc =>
      simp only [collectFrames] at h
      cases hrest : collectFrames rest with
      | error e =>
        rw [hrest] at h
        cases h
      | ok rs =>
        rw [hrest] at h
        cases h
        rcases List.mem_append.mp hr with h' | h'
        · exact ⟨reg, doc, h'⟩
        · exact ih rs hrest r h'

lemma mainRun_ok_mem {loads : List (Except LoadErr (List Node))} {res : List Record}
    (h : mainRun loads = Except.ok res) {r : Record} (hr : r ∈ res) :
    ∃ r0 reg doc, r = normalizeMain r0 ∧ r0 ∈ harvest_region reg doc := by
  unfold mainRun at h
  cases hcf : collectFrames (WIKI_REGIONS.zip loads) with
  | error e =>
    rw [hcf] at h
    cases h
  | ok allRows =>
    rw [hcf] at h
    have h2 : (if allRows.isEmpty then Except.error RunError.emptyResult
        else Except.ok (sortRecs (allRows.map normalizeMain))) = Except.ok res := h
    by_cases he : allRows.isEmpty
    · rw [if_pos he] at h2
      cases h2
    · rw [if_neg he] at h2
      cases h2
      have h1 : r ∈ allRows.map normalizeMain := mem_sortRecs hr
      rcases List.mem_map.mp h1 with ⟨r0, hr0, rfl⟩
      rcases collectFrames_mem _ _ hcf r0 hr0 with ⟨reg, doc, hmem⟩
      exact ⟨r0, reg, doc, rfl, hmem⟩

/-- C3 (counterexample): a table cell consisting only of the footnote
marker "[1]" does yield a record — the empty/dash check runs before
footnote removal — and the final result set then contains a record whose
settlement is the empty string, violating the claimed invariant. -/
theorem c3_invariant_counterexample :
    mainRun [Except.ok c3Doc, Except.ok []] =
      Except.ok [⟨(("Краснодарский край").data), (("Тест").data), ([])⟩] := by
  rfl

/-- C3 (amended): the empty/dash filter is applied to the raw trimmed cell
value before footnote-marker removal, so a settlement can end up empty
(see the counterexample); what does hold of every record in the final
result set is that its settlement is whitespace-trimmed and free of
bracketed footnote spans, and that the raw trimmed cell it came from was
non-empty and not the dash placeholder. -/
theorem c3_settlement_invariant :
    (∀ loads res r, mainRun loads = Except.ok res → r ∈ res →
        cleanB r.settlement = true ∧ trim r.settlement = r.settlement) ∧
      (∀ v s, processCell v = some s →
        trim v ≠ [] ∧ trim v ≠ (("—").data) ∧ s = trim (stripBrackets (trim v))) := by
  constructor
  · intro loads res r hok hmem
    rcases mainRun_ok_mem hok hmem with ⟨r0, reg, doc, rfl, hr0⟩
    rcases harvest_settlement_shape hr0 with ⟨w, hw⟩
    have hset : (normalizeMain r0).settlement = parenStrip (trim (stripBrackets w)) := by
      rw [normalizeMain, hw]
    have hclean : cleanB (parenStrip (trim (stripBrackets w))) = true :=
      cleanB_parenStrip (cleanB_trim (stripBrackets_clean w))
    obtain ⟨hT1, hT2⟩ :=
      parenStrip_trimmed (trimLeft_trim (stripBrackets w)) (trimR_trim (stripBrackets w))
    constructor
    · rw [hset]
      exact hclean
    · rw [hset, trim, hT1, hT2]
  · intro v s h
    exact processCell_eq_some h

/-- A small gated document used to witness the amended C3 invariant. -/
def c3WitDoc : List Node :=
  [Node.h3 (("Тест2").data),
    Node.table ⟨[], [(("Название").data)], some ⟨[(("Название").data)], [[(("Сочи").data)]]⟩⟩]

/-- C3 (amended, witness): the record harvested from `c3WitDoc` has a
bracket-clean, trimmed settlement. -/
theorem c3_settlement_invariant_witness :
    cleanB (Record.mk (("Краснодарский край").data) (("Тест2").data)
        (("Сочи").data)).settlement = true ∧
      trim (Record.mk (("Краснодарский край").data) (("Тест2").data)
          (("Сочи").data)).settlement =
        (Record.mk (("Краснодарский край").data) (("Тест2").data) (("Сочи").data)).settlement :=
  c3_settlement_invariant.1 [Except.ok c3WitDoc, Except.ok []]
    [⟨(("Краснодарский край").data), (("Тест2").data), (("Сочи").data)⟩]
    (Record.mk (("Краснодарский край").data) (("Тест2").data) (("Сочи").data))
    (by rfl) (by decide)

/-! ### The sort order is total and transitive; the output is sorted (C4) -/

lemma char_toNat_inj {c d : Char} (h : c.toNat = d.toNat) : c = d := Char.ext (UInt32.ext h)

lemma leL_cons (c d : Char) (cs ds : L) :
    leL (c :: cs) (d :: ds) =
      if c.toNat < d.toNat then true else if d.toNat < c.toNat then false else leL cs ds := rfl

lemma leL_total : ∀ x y : L, leL x y = true ∨ leL y x = true := by
  intro x
  induction x with
  | nil => intro y; exact Or.inl rfl
  | cons c cs ih =>
    intro y
    cases y with
    | nil => exact Or.inr rfl
    | cons d ds =>
      rw [leL_cons, leL_cons]
      by_cases h1 : c.toNat < d.toNat
      · simp [h1]
      · by_cases h2 : d.toNat < c.toNat
        · simp [h1, h2]
        · simpa [h1, h2] using ih ds

lemma leL_trans : ∀ (x y z : L), leL x y = true → leL y z = true → leL x z = true := by
  intro x
  induction x with
  | nil => intro y z _ _; rfl
  | cons c cs ih =>
    intro y z hxy hyz
    cases y with
    | nil => cases hxy
    | cons d ds =>
      cases z with
      | nil => cases hyz
      | cons e es =>
        rw [leL_cons] at hxy hyz ⊢
        by_cases h1 : c.toNat < d.toNat
        · by_cases h2 : d.toNat < e.toNat
          · simp [show c.toNat < e.toNat by omega]
          · by_cases h3 : e.toNat < d.toNat
            · rw [if_neg h2, if_pos h3] at hyz
              cases hyz
            · simp [show c.toNat < e.toNat by omega]
        · by_cases h4 : d.toNat < c.toNat
          · rw [if_neg h1, if_pos h4] at hxy
            cases hxy
          · rw [if_neg h1, if_neg h4] at hxy
            by_cases h2 : d.toNat < e.toNat
            · simp [show c.toNat < e.toNat by omega]
            · by_cases h3 : e.toNat < d.toNat
              · rw [if_neg h2, if_pos h3] at hyz
                cases hyz
              · rw [if_neg h2, if_neg h3] at hyz
                rw [if_neg (by omega : ¬c.toNat < e.toNat), if_neg (by omega : ¬e.toNat < c.toNat)]
                exact ih ds es hxy hyz

lemma leL_antisymm : ∀ (x y : L), leL x y = true → leL y x = true → x = y := by
  intro x
  induction x with
  | nil =>
    intro y _ hyx
    cases y with
    | nil => rfl
    | cons d ds => cases hyx
  | cons c cs ih =>
    intro y hxy hyx
    cases y with
    | nil => cases hxy
    | cons d ds =>
      rw [leL_cons] at hxy hyx
      by_cases h1 : c.toNat < d.toNat
      · rw [if_neg (by omega : ¬d.toNat < c.toNat), if_pos h1] at hyx
        cases hyx
      · by_cases h2 : d.toNat < c.toNat
        · rw [if_neg h1, if_pos h2] at hxy
          cases hxy
        · rw [if_neg h1, if_neg h2] at hxy
          rw [if_neg h2, if_neg h1] at hyx
          rw [char_toNat_inj (by omega : c.toNat = d.toNat), ih ds hxy hyx]

lemma lexStep_total {x y : L} {rx ry : Bool} (h : rx = true ∨ ry = true) :
    lexStep x y rx = true ∨ lexStep y x ry = true := by
  unfold lexStep
  by_cases hxy : x = y
  · rw [if_pos (beq_iff_eq.mpr hxy), if_pos (beq_iff_eq.mpr hxy.symm)]
    exact h
  · rw [if_neg (by simpa using hxy), if_neg (by simpa using Ne.symm hxy)]
    exact leL_total x y

lemma lexStep_trans {x y z : L} {rxy ryz rxz : Bool}
    (hr : rxy = true → ryz = true → rxz = true)
    (h1 : lexStep x y rxy = true) (h2 : lexStep y z ryz = true) :
    lexStep x z rxz = true := by
  unfold lexStep at h1 h2 ⊢
  by_cases hxy : x = y
  · rw [if_pos (beq_iff_eq.mpr hxy)] at h1
    by_cases hyz : y = z
    · rw [if_pos (beq_iff_eq.mpr hyz)] at h2
      rw [if_pos (beq_iff_eq.mpr (hxy.trans hyz))]
      exact hr h1 h2
    · rw [if_neg (by simpa using hyz)] at h2
      have hxz : ¬(x = z) := fun h => hyz (hxy ▸ h)
      rw [if_neg (by simpa using hxz), hxy]
      exact h2
  · rw [if_neg (by simpa using hxy)] at h1
    by_cases hyz : y = z
    · have hxz : ¬(x = z) := fun h => hxy (h.trans hyz.symm)
      rw [if_neg (by simpa using hxz), ← hyz]
      exact h1
    · rw [if_neg (by simpa using hyz)] at h2
      by_cases hxz : x = z
      · exfalso
        apply hxy
        rw [← hxz] at h2
        exact leL_antisymm x y h1 h2
      · rw [if_neg (by simpa using hxz)]
        exact leL_trans x y z h1 h2

lemma keyLe_total (a b : Record) : keyLe a b = true ∨ keyLe b a = true := by
  unfold keyLe
  exact lexStep_total (lexStep_total (leL_total _ _))

lemma keyLe_trans {a b c : Record} (h1 : keyLe a b = true) (h2 : keyLe b c = true) :
    keyLe a c = true := by
  unfold keyLe at h1 h2 ⊢
  refine lexStep_trans (fun p q => lexStep_trans (fun p' q' => leL_trans _ _ _ p' q') p q) h1 h2

lemma pairwise_insSorted {r : Record} :
    ∀ {l : List Record}, List.Pairwise (fun a b => keyLe a b = true) l →
      List.Pairwise (fun a b => keyLe a b = true) (insSorted r l) := by
  intro l
  induction l with
  | nil =>
    intro _
    exact List.pairwise_singleton _ _
  | cons x xs ih =>
    intro h
    rw [List.pairwise_cons] at h
    obtain ⟨hx, hxs⟩ := h
    simp only [insSorted]
    by_cases hle : keyLe x r
    · rw [if_pos hle, List.pairwise_cons]
      refine ⟨?_, ih hxs⟩
      intro y hy
      rcases mem_insSorted_of hy with rfl | hy'
      · exact hle
      · exact hx y hy'
    · rw [if_neg hle, List.pairwise_cons]
      have hrx : keyLe r x = true := by
        rcases keyLe_total x r with h' | h'
        · exact absurd h' hle
        · exact h'
      refine ⟨?_, List.pairwise_cons.mpr ⟨hx, hxs⟩⟩
      intro y hy
      rcases List.mem_cons.mp hy with rfl | hy'
      · exact hrx
      · exact keyLe_trans hrx (hx y hy')

lemma pairwise_sortRecs_aux : ∀ (l acc : List Record),
    List.Pairwise (fun a b => keyLe a b = true) acc →
      List.Pairwise (fun a b => keyLe a b = true) (l.foldl (fun a r => insSorted r a) acc) := by
  intro l
  induction l with
  | nil => intro acc h; exact h
  | cons r rest ih =>
    intro acc h
    rw [List.foldl_cons]
    exact ih (insSorted r acc) (pairwise_insSorted h)

lemma pairwise_sortRecs (l : List Record) :
    List.Pairwise (fun a b => keyLe a b = true) (sortRecs l) :=
  pairwise_sortRecs_aux l [] (List.Pairwise.nil)

lemma dedupSeen_nodup : ∀ (l seen : List Record),
    (dedupSeen seen l).Nodup ∧ ∀ r ∈ dedupSeen seen l, r ∉ seen := by
  intro l
  induction l with
  | nil =>
    intro seen
    exact ⟨List.nodup_nil, fun r hr => absurd hr (List.not_mem_nil r)⟩
  | cons x rest ih =>
    intro seen
    simp only [dedupSeen]
    by_cases hx : x ∈ seen
    · rw [if_pos hx]
      exact ih seen
    · rw [if_neg hx]
      obtain ⟨hnd, hns⟩ := ih (x :: seen)
      refine ⟨List.nodup_cons.mpr ⟨?_, hnd⟩, ?_⟩
      · intro hmem
        exact hns x hmem (List.mem_cons_self x seen)
      · intro r hr
        rcases List.mem_cons.mp hr with rfl | hr'
        · exact hx
        · exact fun hrs => hns r hr' (List.mem_cons_of_mem x hrs)

lemma dedupSeen_sublist : ∀ (l seen : List Record), (dedupSeen seen l).Sublist l := by
  intro l
  induction l with
  | nil => intro seen; exact List.Sublist.refl []
  | cons x rest ih =>
    intro seen
    simp only [dedupSeen]
    by_cases hx : x ∈ seen
    · rw [if_pos hx]
      exact (ih seen).cons x
    · rw [if_neg hx]
      exact (ih (x :: seen)).cons₂ x

lemma dedupSeen_mem : ∀ (l seen : List Record) (r : Record),
    r ∈ l → r ∉ seen → r ∈ dedupSeen seen l := by
  intro l
  induction l with
  | nil =>
    intro seen r hr _
    cases hr
  | cons x rest ih =>
    intro seen r hr hns
    simp only [dedupSeen]
    by_cases hx : x ∈ seen
    · rw [if_pos hx]
      rcases List.mem_cons.mp hr with rfl | hr'
      · exact absurd hx hns
      · exact ih seen r hr' hns
    · rw [if_neg hx]
      by_cases hrx : r = x
      · subst hrx
        exact List.mem_cons_self r _
      · rcases List.mem_cons.mp hr with rfl | hr'
        · exact absurd rfl hrx
        · refine List.mem_cons_of_mem x (ih (x :: seen) r hr' ?_)
          intro hmem
          rcases List.mem_cons.mp hmem with rfl | hmem'
          · exact hrx rfl
          · exact hns hmem'

/-- C4 (counterexample): deduplication runs per region before the
parenthetical/prefix normalization of `main`, not after it — two rows that
become the identical triple (region, "Тест", "Адлер") only once the
trailing parenthetical is removed both survive into the final output. -/
theorem c4_dedup_counterexample :
    mainRun [Except.ok c4Doc, Except.ok []] =
      Except.ok
        [⟨(("Краснодарский край").data), (("Тест").data), (("Адлер").data)⟩,
          ⟨(("Краснодарский край").data), (("Тест").data), (("Адлер").data)⟩] := by
  rfl

/-- C4 (amended): exact-duplicate (region, district, settlement) triples
are removed per region, keeping the first occurrence, after footnote
removal but before the parenthetical/prefix normalization of `main`
(duplicates that arise only through those later steps are kept, see the
counterexample); the final output is sorted by the case-insensitive
lexicographic order on (region, district, settlement). -/
theorem c4_dedup_and_sort :
    (∀ loads res, mainRun loads = Except.ok res →
        List.Pairwise (fun a b => keyLe a b = true) res) ∧
      (∀ reg ns, (harvest_region reg ns).Nodup) ∧
      (∀ l : List Record, (drop_duplicates l).Sublist l ∧ ∀ r ∈ l, r ∈ drop_duplicates l) := by
  refine ⟨?_, ?_, ?_⟩
  · intro loads res h
    unfold mainRun at h
    cases hcf : collectFrames (WIKI_REGIONS.zip loads) with
    | error e =>
      rw [hcf] at h
      cases h
    | ok allRows =>
      rw [hcf] at h
      have h2 : (if allRows.isEmpty then Except.error RunError.emptyResult
          else Except.ok (sortRecs (allRows.map normalizeMain))) = Except.ok res := h
      by_cases he : allRows.isEmpty
      · rw [if_pos he] at h2
        cases h2
      · rw [if_neg he] at h2
        cases h2
        exact pairwise_sortRecs _
  · intro reg ns
    exact (dedupSeen_nodup _ []).1
  · intro l
    exact ⟨dedupSeen_sublist l [],
      fun r hr => dedupSeen_mem l [] r hr (List.not_mem_nil r)⟩

/-- A small document used to witness the amended C4 sortedness. -/
def c4WitDoc : List Node :=
  [Node.h3 (("Тест3").data),
    Node.table ⟨[], [(("Название").data)],
      some ⟨[(("Название").data)], [[(("Сочи").data)], [(("Адлер").data)]]⟩⟩]

/-- C4 (amended, witness): the final rows of a concrete run are pairwise
ordered by the case-insensitive sort key. -/
theorem c4_dedup_and_sort_witness :
    List.Pairwise (fun a b => keyLe a b = true)
      [⟨(("Краснодарский край").data), (("Тест3").data), (("Адлер").data)⟩,
        ⟨(("Краснодарский край").data), (("Тест3").data), (("Сочи").data)⟩] :=
  c4_dedup_and_sort.1 [Except.ok c4WitDoc, Except.ok []]
    [⟨(("Краснодарский край").data), (("Тест3").data), (("Адлер").data)⟩,
      ⟨(("Краснодарский край").data), (("Тест3").data), (("Сочи").data)⟩]
    (by rfl)

end KK
